import Mathlib

/-!
# coredns-acme-dns01: zone-file resolution and TXT record mutation

A shallow embedding of `struct.zone.go`.

* Go strings are modelled as lists of characters (`Str`), i.e. as valid UTF-8 text;
  `byteLen` recovers the byte length where the code depends on it.
* The zone directory is a flat listing `Dir` of regular, readable files, each a pair
  `(name, content)`, in the order `ioutil.ReadDir` returns them (sorted by file name); the
  directory can be listed and its files read and written. For the name of a listed file,
  `path.Join(zf.ZoneFileDirectory, name)` is the entry called `name`.
* The file that `createZoneFile` writes is named from the record name, so `path.Join` with
  its `path.Clean` is modelled in full (`pathJoin`, `writeTarget`). The file system holds the
  zone directory, the directories above it and the listed files, and nothing else; file names
  stay within the length limits of the file system.
* `log.Fatalf` after a failed `createZoneFile` ends the process; it is the error
  `ZErr.createFailed`, which every caller passes on.
* `time.Now().Format("20060102")` is the parameter `now`.
* The pointer receiver `zf` is passed explicitly: the configuration fields as a `ZoneFile`
  value, the resolved `zf.zoneFile` as a file name.
-/

namespace ZoneHook

/-- Text: a Go string holding valid UTF-8. -/
abbrev Str := List Char

/-- Directory listing: the files of the zone directory with their contents. -/
abbrev Dir := List (Str × Str)

/-- Errors returned by the operations (the `errors.New` values of the source and the
failures of the standard library calls). -/
inductive ZErr where
  /-- The error "unable to find existing zone file". -/
  | zoneNotFound
  /-- The error "unable to find existing record". -/
  | recordNotFound
  /-- An error of `ioutil.ReadFile` (the file is not there). -/
  | ioFailure
  /-- The range error of `strconv.ParseInt`. -/
  | serialOutOfRange
  /-- The exit through `log.Fatalf("Failed to create zone file ...")`. -/
  | createFailed
  deriving DecidableEq, Repr

deriving instance DecidableEq for Except

/-- The fields of the Go struct `ZoneFile` that the operations read. -/
structure ZoneFile where
  /-- TXT value to publish. -/
  Value : Str
  /-- Address written into the glue A records of a new zone. -/
  nsarecordip : Str
  /-- Record name, as stored by `SetRecordName`. -/
  record : Str
  /-- Path of the zone directory. -/
  ZoneFileDirectory : Str
  deriving DecidableEq, Repr

/-! ## Library functions used by the source -/

/-- Go `len(s)`: the number of bytes of the UTF-8 encoding. -/
def byteLen : Str → Nat
  | [] => 0
  | c :: cs => c.utf8Size + byteLen cs

/-- Go `strings.Split(s, sep)` for a one-character separator. -/
def stringsSplit (sep : Char) : Str → List Str
  | [] => [[]]
  | x :: xs =>
    if x = sep then [] :: stringsSplit sep xs
    else match stringsSplit sep xs with
      | [] => [[x]]
      | l :: ls => (x :: l) :: ls

/-- Go `strings.Join(elems, sep)`. -/
def stringsJoin (sep : Str) : List Str → Str
  | [] => []
  | [l] => l
  | l :: l2 :: ls => l ++ sep ++ stringsJoin sep (l2 :: ls)

/-- Go `strings.Count(s, sep)` for a one-character separator. -/
def stringsCount (sep : Char) : Str → Nat
  | [] => 0
  | x :: xs => (if x = sep then 1 else 0) + stringsCount sep xs

/-- Go `strings.Contains(s, substr)`. -/
def stringsContains : Str → Str → Bool
  | [], substr => substr.isEmpty
  | x :: xs, substr => substr.isPrefixOf (x :: xs) || stringsContains xs substr

/-- Go `strings.Replace(s, old, "", 1)`: the leftmost occurrence of `old` is removed. -/
def stringsRemoveFirst (old : Str) : Str → Str
  | [] => []
  | x :: xs =>
    if old.isPrefixOf (x :: xs) then (x :: xs).drop old.length
    else x :: stringsRemoveFirst old xs

/-- Go `strings.TrimRight(s, ".")`. -/
def trimRightDots (s : Str) : Str :=
  (s.reverse.dropWhile (fun c => c = '.')).reverse

/-- Byte-wise order of file names, the order of `ioutil.ReadDir`. -/
def nameLt : Str → Str → Bool
  | [], [] => false
  | [], _ :: _ => true
  | _ :: _, [] => false
  | a :: as, b :: bs => decide (a.val < b.val) || (a == b && nameLt as bs)

/-- Content of the file called `name`, as `ioutil.ReadFile` reads it. -/
def readFile (name : Str) (dir : Dir) : Option Str :=
  (dir.find? (fun file => file.1 == name)).map (fun file => file.2)

/-- Effect of `ioutil.WriteFile` on the listing: an existing file gets the new content, a
new file takes its place in name order. -/
def writeFile (name content : Str) : Dir → Dir
  | [] => [(name, content)]
  | file :: rest =>
    if file.1 = name then (name, content) :: rest
    else if nameLt name file.1 then (name, content) :: file :: rest
    else file :: writeFile name content rest

/-- Token size limit of `bufio.Scanner` (`bufio.MaxScanTokenSize`). -/
def maxScanTokenSize : Nat := 65536

/-- The `dropCR` step of `bufio.ScanLines`: one trailing carriage return is removed. -/
def dropCR (data : Str) : Str :=
  if data.getLast? = some '\r' then data.dropLast else data

/-! ## Domain walker -/

/-- Go `SetRecordName`: the stored record name has no trailing dots. -/
def SetRecordName (zf : ZoneFile) (record : Str) : ZoneFile :=
  { zf with record := trimRightDots record }

/-- Go `shiftDomain`: split on the dot, drop the first part, join again. -/
def shiftDomain (domain : Str) : Str :=
  stringsJoin ".".toList ((stringsSplit '.' domain).drop 1)

/-- Match of `lan[0-9]*$` right after a dot: the rest of the text is `lan` and digits. -/
def lanTail (s : Str) : Bool :=
  "lan".toList.isPrefixOf s && (s.drop 3).all Char.isDigit

/-- Go `isLocalTLD`: the regular expression `\.lan[0-9]*$` matches somewhere in the domain. -/
def isLocalTLD : Str → Bool
  | [] => false
  | c :: cs => (c == '.' && lanTail cs) || isLocalTLD cs

/-! ## Zone directory scanner -/

/-- Go `buildOriginRegex`: the literal that the anchored expression
`"^" + regexp.QuoteMeta("$ORIGIN <domain>.")` looks for at the start of a line. -/
def buildOriginRegex (domain : Str) : Str :=
  "$ORIGIN ".toList ++ domain ++ ".".toList

/-- Match of the expression built by `buildOriginRegex`: anchored at the start of the
line, not at its end. -/
def reMatch (re line : Str) : Bool :=
  re.isPrefixOf line

/-- The scanner loop of `searchZoneFilesForOrigin` over the newline-separated segments of one
file: the first line containing `$ORIGIN` decides. A segment of `maxScanTokenSize` bytes or
more ends the scan (`bufio.ErrTooLong`). The final empty segment, which the scanner does not
emit, neither contains the token nor exceeds the limit. -/
def scanFile (re : Str) : List Str → Bool
  | [] => false
  | raw :: rest =>
    if maxScanTokenSize ≤ byteLen raw then false
    else
      let line := dropCR raw
      if stringsContains line "$ORIGIN".toList then reMatch re line
      else scanFile re rest

/-- The body of the file loop of `searchZoneFilesForOrigin`: whether the file with the given
content is a match for the origin `domain`. -/
def fileMatches (domain content : Str) : Bool :=
  scanFile (buildOriginRegex domain) (stringsSplit '\n' content)

/-- Go `searchZoneFilesForOrigin`: the first file of the listing that matches. -/
def searchZoneFilesForOrigin (domain : Str) : Dir → Option Str
  | [] => none
  | file :: files =>
    if fileMatches domain file.2 then some file.1
    else searchZoneFilesForOrigin domain files

/-! ## Template builder -/

/-- Text written by `createZoneFile`. -/
def zoneTemplate (now nsarecordip domain : Str) : Str :=
  "$TTL 60\n".toList
  ++ "$ORIGIN ".toList ++ domain ++ ".\n".toList
  ++ "@        3600 IN SOA a.ns.".toList ++ domain ++ ". devenv.".toList ++ domain
    ++ ". (\n".toList
  ++ "                     ".toList ++ now ++ "00    ; serial\n".toList
  ++ "                     86400         ; refresh\n".toList
  ++ "                     3600          ; retry\n".toList
  ++ "                     604800        ; expire\n".toList
  ++ "                     86400         ; expire\n".toList
  ++ "                     )\n".toList
  ++ "         3600 IN NS   a.ns.".toList ++ domain ++ ".\n".toList
  ++ "         3600 IN NS   b.ns.".toList ++ domain ++ ".\n".toList
  ++ "a.ns          IN A    ".toList ++ nsarecordip ++ "\n".toList
  ++ "b.ns          IN A    ".toList ++ nsarecordip ++ "\n".toList

/-- One step of the element loop of Go `path.Clean`, for the part `e` of the path between
two slashes: an empty part and `.` are dropped, `..` removes the element before it, or is
kept at the start of a path that is not rooted, or is dropped at the root. `out` holds the
kept elements, the last one first. -/
def cleanStep (rooted : Bool) (out : List Str) (e : Str) : List Str :=
  if e = [] ∨ e = ".".toList then out
  else if e = "..".toList then
    match out with
    | top :: rest =>
      if top = "..".toList then (if rooted then out else e :: out) else rest
    | [] => if rooted then out else [e]
  else e :: out

/-- The element loop of Go `path.Clean` over the parts of a path. -/
def cleanElems (rooted : Bool) (out : List Str) (es : List Str) : List Str :=
  es.foldl (cleanStep rooted) out

/-- Go `path.Clean(p)`: whether the path is rooted, and its elements, the last one first. -/
def pathClean (p : Str) : Bool × List Str :=
  (p.head? == some '/', cleanElems (p.head? == some '/') [] (stringsSplit '/' p))

/-- Go `path.Join(dir, name)` for a non-empty `name`: an empty `dir` is left out, and the
joined text is cleaned. -/
def pathJoin (dir name : Str) : Bool × List Str :=
  if dir = [] then pathClean name else pathClean (dir ++ '/' :: name)

/-- What a path names for `ioutil.WriteFile`. -/
inductive WriteTarget where
  /-- A file directly in the zone directory: it is created or truncated. -/
  | entry (name : Str)
  /-- A new file in a directory above the zone directory. -/
  | outside
  /-- The file cannot be opened: the path holds a NUL byte, names a directory, or lies in a
  directory that does not exist. -/
  | unwritable
  deriving DecidableEq, Repr

/-- Whether the cleaned path `p` (elements, the last one first) is the zone directory or a
directory above it; a run of `..` from the working directory always is. -/
def isKnownDir (rooted : Bool) (zone p : List Str) : Bool :=
  p.isSuffixOf zone || (!rooted && p.all (fun e => e == "..".toList))

/-- The file that `path.Join(dir, name)` names for `ioutil.WriteFile`. -/
def writeTarget (dir name : Str) : WriteTarget :=
  let rooted := (pathClean dir).1
  let zone := (pathClean dir).2
  if Char.ofNat 0 ∈ name then .unwritable
  else match (pathJoin dir name).2 with
    | [] => .unwritable
    | n :: parent =>
      if isKnownDir rooted zone (n :: parent) then .unwritable
      else if parent = zone then .entry n
      else if isKnownDir rooted zone parent then .outside
      else .unwritable

/-- Go `createZoneFile`: the template is written to `path.Join(dir, "db." + domain)`; the
result is the directory after the write, or the error of `ioutil.WriteFile`. -/
def createZoneFile (now : Str) (zf : ZoneFile) (domain : Str) (dir : Dir) :
    Except ZErr Dir :=
  match writeTarget zf.ZoneFileDirectory ("db.".toList ++ domain) with
  | .entry name => .ok (writeFile name (zoneTemplate now zf.nsarecordip domain) dir)
  | .outside => .ok dir
  | .unwritable => .error .ioFailure

/-! ## Zone resolver -/

/-- Number of iterations the loop of `FindZoneFile` may make for the first candidate. -/
def walkLimit (domain : Str) : Int :=
  (stringsCount '.' domain : Int) - 1 + (if isLocalTLD domain then 1 else 0)

/-- The loop of `FindZoneFile`: at most `n` further shifts; the result is the final value
of `domain` and of `matchedFile`. -/
def walkLoop (files : Dir) : Nat → Str → Str × Option Str
  | 0, domain => (domain, none)
  | n + 1, previousDomain =>
    let domain := shiftDomain previousDomain
    if previousDomain = domain then (domain, none)
    else match searchZoneFilesForOrigin domain files with
      | some file => (domain, some file)
      | none => walkLoop files n domain

/-- Result of `FindZoneFile`. -/
structure Resolution where
  /-- The directory after the call. -/
  dir : Dir
  /-- Whether `createZoneFile` ran (not a value of the source: it records the branch). -/
  created : Bool
  /-- The returned error, or the name of the file stored in `zf.zoneFile`. -/
  result : Except ZErr Str
  deriving DecidableEq

/-- The create branch of `FindZoneFile`: `createZoneFile` for `domain`, the exit through
`log.Fatalf` when it fails, then the new listing is searched for the name `db.<domain>`. -/
def createAndResolve (now : Str) (zf : ZoneFile) (domain : Str) (dir : Dir) : Resolution :=
  match createZoneFile now zf domain dir with
  | .error _ => ⟨dir, true, .error .createFailed⟩
  | .ok dir' =>
    match dir'.find? (fun file => file.1 == "db.".toList ++ domain) with
    | some file => ⟨dir', true, .ok file.1⟩
    | none => ⟨dir', true, .error .zoneNotFound⟩

/-- Go `FindZoneFile`. -/
def FindZoneFile (now : Str) (zf : ZoneFile) (createIfMissing : Bool) (dir : Dir) :
    Resolution :=
  let domain := shiftDomain zf.record
  match searchZoneFilesForOrigin domain dir with
  | some file => ⟨dir, false, .ok file⟩
  | none =>
    let walked := walkLoop dir (walkLimit domain).toNat domain
    match walked.2 with
    | some file => ⟨dir, false, .ok file⟩
    | none =>
      if createIfMissing then createAndResolve now zf walked.1 dir
      else ⟨dir, false, .error .zoneNotFound⟩

/-! ## Record mutator -/

/-- The owner computed by `insertOrUpdateRecord` and `cleanupRecord`: `db.` is removed from the
file name, then `.<baseDomain>` from the record name (leftmost occurrence each). -/
def recordOwner (zoneFile record : Str) : Str :=
  let baseDomain := stringsRemoveFirst "db.".toList zoneFile
  stringsRemoveFirst (".".toList ++ baseDomain) record

/-- Go `generateRecordLine`. -/
def generateRecordLine (value record : Str) : Str :=
  record ++ " IN TXT \"".toList ++ value ++ "\"".toList

/-- The loop of `insertOrUpdateRecord`: the rewritten lines and the flag `recordUpdated`. -/
def insertLoop (value record : Str) : List Str → List Str × Bool
  | [] => ([], false)
  | line :: rest =>
    let r := insertLoop value record rest
    if stringsContains line record then (generateRecordLine value record :: r.1, true)
    else (line :: r.1, r.2)

/-- The text `insertOrUpdateRecord` writes back for the text it read. -/
def insertOrUpdateText (value record contents : Str) : Str :=
  let r := insertLoop value record (stringsSplit '\n' contents)
  let lines := if r.2 then r.1 else r.1 ++ [generateRecordLine value record]
  stringsJoin "\n".toList lines

/-- Go `insertOrUpdateRecord` on the resolved file `zoneFile`. -/
def insertOrUpdateRecord (zf : ZoneFile) (zoneFile : Str) (dir : Dir) :
    Dir × Except ZErr Unit :=
  match readFile zoneFile dir with
  | none => (dir, .error .ioFailure)
  | some contents =>
    (writeFile zoneFile
      (insertOrUpdateText zf.Value (recordOwner zoneFile zf.record) contents) dir, .ok ())

/-- The loop of `cleanupRecord`: the kept lines and the flag `recordFound`. -/
def cleanupLoop (record : Str) : List Str → List Str × Bool
  | [] => ([], false)
  | line :: rest =>
    let r := cleanupLoop record rest
    if stringsContains line (record ++ " IN TXT".toList) then (r.1, true)
    else (line :: r.1, r.2)

/-- The text `cleanupRecord` writes back for the text it read, or its error. -/
def cleanupText (record contents : Str) : Except ZErr Str :=
  let r := cleanupLoop record (stringsSplit '\n' contents)
  if r.2 then .ok (stringsJoin "\n".toList r.1) else .error .recordNotFound

/-- Go `cleanupRecord` on the resolved file `zoneFile`. -/
def cleanupRecord (zf : ZoneFile) (zoneFile : Str) (dir : Dir) : Dir × Except ZErr Unit :=
  match readFile zoneFile dir with
  | none => (dir, .error .ioFailure)
  | some contents =>
    match cleanupText (recordOwner zoneFile zf.record) contents with
    | .error e => (dir, .error e)
    | .ok newContents => (writeFile zoneFile newContents dir, .ok ())

/-! ## Serial incrementer -/

/-- The character class `[ \t]`. -/
def isBlank (c : Char) : Bool :=
  c == ' ' || c == '\t'

/-- Go `re.FindStringSubmatch(line)` for the expression
`^(?P<prefix>[ \t]*)(?P<serial>[0-9]+)[ \t]*;[ \t]*serial`: the groups `matched[1]` and
`matched[2]` when the line matches. Each repetition is followed by a character outside its
class, so the greedy runs are the only way to match. -/
def serialSubmatch (line : Str) : Option (Str × Str) :=
  let lead := line.takeWhile isBlank
  let r1 := line.dropWhile isBlank
  let serial := r1.takeWhile Char.isDigit
  let r2 := (r1.dropWhile Char.isDigit).dropWhile isBlank
  if serial.isEmpty then none
  else if r2.head? = some ';' ∧ "serial".toList.isPrefixOf ((r2.drop 1).dropWhile isBlank) then
    some (lead, serial)
  else none

/-- Value of a run of decimal digits. -/
def digitsValue (digits : Str) : Nat :=
  digits.foldl (fun acc c => acc * 10 + (c.toNat - 48)) 0

/-- Go `strconv.ParseInt(s, 10, 64)` on a run of digits: values above `2^63 - 1` are a range
error. -/
def parseInt64 (digits : Str) : Except ZErr Int :=
  if digitsValue digits < 2 ^ 63 then .ok (digitsValue digits : Int) else .error .serialOutOfRange

/-- Go `serial++` on an `int64`. -/
def int64Succ (serial : Int) : Int :=
  (serial + 1 + 2 ^ 63) % 2 ^ 64 - 2 ^ 63

/-- Go `strconv.FormatInt(i, 10)`. -/
def formatInt (i : Int) : Str :=
  if i < 0 then '-' :: Nat.toDigits 10 i.natAbs else Nat.toDigits 10 i.toNat

/-- The loop of `updateZoneSerial`: the first line that matches with a non-empty first group
is rewritten, and the loop stops. -/
def serialLoop : List Str → Except ZErr (List Str)
  | [] => .ok []
  | line :: rest =>
    match serialSubmatch line with
    | some (lead, digits) =>
      if lead.isEmpty then (serialLoop rest).map (fun ls => line :: ls)
      else match parseInt64 digits with
        | .error e => .error e
        | .ok serial =>
          .ok ((lead ++ formatInt (int64Succ serial) ++ " ; serial".toList) :: rest)
    | none => (serialLoop rest).map (fun ls => line :: ls)

/-- The text `updateZoneSerial` writes back for the text it read, or its error. -/
def updateSerialText (contents : Str) : Except ZErr Str :=
  (serialLoop (stringsSplit '\n' contents)).map (fun ls => stringsJoin "\n".toList ls)

/-- Go `updateZoneSerial` on the resolved file `zoneFile`. -/
def updateZoneSerial (zoneFile : Str) (dir : Dir) : Dir × Except ZErr Unit :=
  match readFile zoneFile dir with
  | none => (dir, .error .ioFailure)
  | some contents =>
    match updateSerialText contents with
    | .error e => (dir, .error e)
    | .ok newContents => (writeFile zoneFile newContents dir, .ok ())

/-! ## Operations -/

/-- Go `AddRecord`: resolve (creating the zone when missing), insert or update, bump the
serial. -/
def AddRecord (now : Str) (zf : ZoneFile) (dir : Dir) : Dir × Except ZErr Unit :=
  let r := FindZoneFile now zf true dir
  match r.result with
  | .error e => (r.dir, .error e)
  | .ok zoneFile =>
    match insertOrUpdateRecord zf zoneFile r.dir with
    | (dir1, .error e) => (dir1, .error e)
    | (dir1, .ok _) => updateZoneSerial zoneFile dir1

/-- Go `RemoveRecord`: resolve without creating, remove the record lines, bump the serial. -/
def RemoveRecord (now : Str) (zf : ZoneFile) (dir : Dir) : Dir × Except ZErr Unit :=
  let r := FindZoneFile now zf false dir
  match r.result with
  | .error e => (r.dir, .error e)
  | .ok zoneFile =>
    match cleanupRecord zf zoneFile r.dir with
    | (dir1, .error e) => (dir1, .error e)
    | (dir1, .ok _) => updateZoneSerial zoneFile dir1

/-! ## Notions used to state the properties -/

/-- The `k`-th domain of the walk for a record name: the record name without its leftmost
label, shifted `k` more times. -/
def walkDomain (record : Str) (k : Nat) : Str :=
  shiftDomain^[k] (shiftDomain record)

/-- The depth limit of the walk for a record name, as a number of shifts. -/
def walkDepth (record : Str) : Nat :=
  (walkLimit (shiftDomain record)).toNat

/-- The line `line` is the first line of `content` containing `$ORIGIN`, as the scanner of
`searchZoneFilesForOrigin` reads it: a trailing carriage return is dropped, and no line up
to it reaches the token size limit. -/
def FirstOriginLine (content line : Str) : Prop :=
  ∃ before raw after,
    stringsSplit '\n' content = before ++ raw :: after ∧ line = dropCR raw ∧
    (∀ l ∈ before, byteLen l < maxScanTokenSize ∧
      stringsContains (dropCR l) "$ORIGIN".toList = false) ∧
    byteLen raw < maxScanTokenSize ∧ stringsContains line "$ORIGIN".toList = true

/-! ## Concrete scenarios -/

/-- The date used in the scenarios. -/
def exNow : Str := "20240601".toList

/-- The zone directory set by Go `NewZoneFile`. -/
def defaultZoneDir : Str := "/coredns/zones.d".toList

/-- Request of the scenario with an existing zone `example.com`. -/
def exRequest : ZoneFile :=
  ⟨"v1".toList, "172.19.0.53".toList, "_acme-challenge.foo.example.com".toList,
    defaultZoneDir⟩

/-- Directory holding only `db.example.com`, which declares the origin `example.com.`. -/
def exDir : Dir :=
  [("db.example.com".toList, "$ORIGIN example.com.\n".toList)]

/-- Request of the scenario on an empty directory. -/
def labRequest : ZoneFile :=
  ⟨"tok1".toList, "172.19.0.53".toList, "_acme-challenge.lab.lan".toList,
    defaultZoneDir⟩

/-- Request for the record `x.example.com`. -/
def xRequest : ZoneFile :=
  ⟨"v1".toList, "172.19.0.53".toList, "x.example.com".toList,
    defaultZoneDir⟩

/-- Directory whose only zone file has a comment on its `$ORIGIN` line that mentions the
record line of `x`. -/
def commentDir : Dir :=
  [("db.example.com".toList, "$ORIGIN example.com. ; x IN TXT\n".toList)]

/-- Directory whose zone file `db.example.com` holds a record line for `x`. -/
def xDir : Dir :=
  [("db.example.com".toList,
    "$ORIGIN example.com.\n          2024060100 ; serial\nx IN TXT \"v0\"".toList)]

/-- The line has the form `<p><d><s1>;<s2>serial<tail>`: `p`, `s1`, `s2` runs of spaces and
tabs, `d` a non-empty run of digits. This is the shape the expression of `updateZoneSerial`
accepts, with `p` and `d` its two groups. -/
def SerialLine (line p d : Str) : Prop :=
  ∃ s1 s2 tail,
    line = p ++ d ++ s1 ++ ';' :: s2 ++ "serial".toList ++ tail ∧
    (∀ c ∈ p, isBlank c = true) ∧ d ≠ [] ∧ (∀ c ∈ d, c.isDigit = true) ∧
    (∀ c ∈ s1, isBlank c = true) ∧ (∀ c ∈ s2, isBlank c = true)

/-- The loop of `FindZoneFile` with the early exit (shifted domain equal to the previous one)
taken out. -/
def walkLoopNoBreak (files : Dir) : Nat → Str → Str × Option Str
  | 0, domain => (domain, none)
  | n + 1, previousDomain =>
    let domain := shiftDomain previousDomain
    match searchZoneFilesForOrigin domain files with
    | some file => (domain, some file)
    | none => walkLoopNoBreak files n domain

/-- The serial line of a new zone file of 1 June 2024. -/
def serialLineEx : Str :=
  "                     2024060100    ; serial".toList

/-- A zone text with an SOA opening line, the serial line and a later line that looks like a
serial line. -/
def serialTextEx : Str :=
  "@ 3600 IN SOA a.ns.lan. devenv.lan. (\n".toList ++ serialLineEx ++ "\n  86400 ; serial".toList

/-- Request for a record under the local zone `lan` whose name holds `.lan` twice. -/
def lanpartyRequest : ZoneFile :=
  ⟨"tok1".toList, "172.19.0.53".toList, "_acme-challenge.lanparty.lan".toList,
    defaultZoneDir⟩

theorem stringsSplit_ne_nil (c : Char) (s : Str) : stringsSplit c s ≠ [] := by
  induction s with
  | nil => simp [stringsSplit]
  | cons x xs ih =>
    unfold stringsSplit
    split
    · simp
    · split <;> simp

theorem stringsJoin_cons_cons (sep l l2 : Str) (ls : List Str) :
    stringsJoin sep (l :: l2 :: ls) = l ++ sep ++ stringsJoin sep (l2 :: ls) := rfl

theorem stringsJoin_cons_of_ne_nil (sep l : Str) (ls : List Str) (h : ls ≠ []) :
    stringsJoin sep (l :: ls) = l ++ sep ++ stringsJoin sep ls := by
  cases ls with
  | nil => exact absurd rfl h
  | cons l2 ls => rfl

theorem stringsJoin_split (c : Char) (s : Str) : stringsJoin [c] (stringsSplit c s) = s := by
  induction s with
  | nil => rfl
  | cons x xs ih =>
    unfold stringsSplit
    split
    · rename_i hx
      rw [stringsJoin_cons_of_ne_nil _ _ _ (stringsSplit_ne_nil c xs), ih, hx]
      rfl
    · split
      · rename_i h
        exact absurd h (stringsSplit_ne_nil c xs)
      · rename_i l ls h
        rw [h] at ih
        cases ls with
        | nil =>
          simp only [stringsJoin] at ih ⊢
          rw [ih]
        | cons l2 ls =>
          rw [stringsJoin_cons_cons] at ih ⊢
          rw [← ih]
          simp

theorem not_mem_of_mem_stringsSplit (c : Char) (s : Str) :
    ∀ l ∈ stringsSplit c s, c ∉ l := by
  induction s with
  | nil => simp [stringsSplit]
  | cons x xs ih =>
    unfold stringsSplit
    split
    · intro l hl
      rcases List.mem_cons.1 hl with h | h
      · simp [h]
      · exact ih l h
    · rename_i hx
      split
      · simp [hx, Ne.symm hx]
      · rename_i l1 ls h
        rw [h] at ih
        intro l hl
        rcases List.mem_cons.1 hl with h1 | h1
        · subst h1
          have := ih l1 (List.mem_cons_self _ _)
          simp [this, Ne.symm hx]
        · exact ih l (List.mem_cons_of_mem _ h1)

theorem stringsSplit_of_not_mem (c : Char) (l : Str) (h : c ∉ l) : stringsSplit c l = [l] := by
  induction l with
  | nil => rfl
  | cons x xs ih =>
    have hx : x ≠ c := fun e => h (by simp [e])
    have hxs : c ∉ xs := fun e => h (List.mem_cons_of_mem _ e)
    unfold stringsSplit
    rw [if_neg hx, ih hxs]

theorem stringsSplit_append_sep (c : Char) (l rest : Str) (h : c ∉ l) :
    stringsSplit c (l ++ c :: rest) = l :: stringsSplit c rest := by
  induction l with
  | nil => simp [stringsSplit]
  | cons x xs ih =>
    have hx : x ≠ c := fun e => h (by simp [e])
    have hxs : c ∉ xs := fun e => h (List.mem_cons_of_mem _ e)
    rw [List.cons_append]
    conv_lhs => unfold stringsSplit
    rw [if_neg hx, ih hxs]

theorem stringsSplit_join (c : Char) (ls : List Str) (hne : ls ≠ [])
    (h : ∀ l ∈ ls, c ∉ l) : stringsSplit c (stringsJoin [c] ls) = ls := by
  induction ls with
  | nil => exact absurd rfl hne
  | cons l rest ih =>
    cases rest with
    | nil => exact stringsSplit_of_not_mem c l (h l (List.mem_cons_self _ _))
    | cons l2 rest =>
      rw [stringsJoin_cons_cons, List.append_assoc, List.singleton_append,
        stringsSplit_append_sep c l _ (h l (List.mem_cons_self _ _)),
        ih (by simp) (fun x hx => h x (List.mem_cons_of_mem _ hx))]

theorem stringsContains_iff (s sub : Str) : stringsContains s sub = true ↔ sub <:+: s := by
  induction s with
  | nil => simp [stringsContains, List.isEmpty_iff]
  | cons x xs ih =>
    simp only [stringsContains, Bool.or_eq_true, List.isPrefixOf_iff_prefix, ih,
      List.infix_cons_iff]

theorem stringsContains_eq_false_iff (s sub : Str) :
    stringsContains s sub = false ↔ ¬ sub <:+: s := by
  rw [← stringsContains_iff, Bool.not_eq_true]

theorem stringsCount_pos_iff (c : Char) (s : Str) : 0 < stringsCount c s ↔ c ∈ s := by
  induction s with
  | nil => simp [stringsCount]
  | cons x xs ih =>
    by_cases hx : x = c
    · simp [stringsCount, hx]
    · simp [stringsCount, hx, ih, Ne.symm hx]

/-! ## Lemmas on the domain walker -/

theorem shiftDomain_nil : shiftDomain [] = [] := rfl

theorem shiftDomain_cons (x : Char) (xs : Str) :
    shiftDomain (x :: xs) = if x = '.' then xs else shiftDomain xs := by
  unfold shiftDomain
  conv_lhs => unfold stringsSplit
  split
  · simpa using stringsJoin_split '.' xs
  · split
    · rename_i h
      exact absurd h (stringsSplit_ne_nil _ xs)
    · rename_i l ls h
      rw [h]
      rfl

theorem shiftDomain_length_lt (d : Str) (h : d ≠ []) : (shiftDomain d).length < d.length := by
  induction d with
  | nil => exact absurd rfl h
  | cons x xs ih =>
    rw [shiftDomain_cons]
    split
    · simp
    · cases xs with
      | nil => simp [shiftDomain_nil]
      | cons y ys =>
        have := ih (by simp)
        simp only [List.length_cons] at this ⊢
        omega

theorem shiftDomain_ne_self (d : Str) (h : d ≠ []) : d ≠ shiftDomain d := by
  intro e
  have := shiftDomain_length_lt d h
  rw [← e] at this
  exact lt_irrefl _ this

theorem stringsCount_shiftDomain (d : Str) :
    stringsCount '.' (shiftDomain d) = stringsCount '.' d - 1 := by
  induction d with
  | nil => rfl
  | cons x xs ih =>
    rw [shiftDomain_cons]
    by_cases hx : x = '.'
    · simp [hx, stringsCount]
    · simp [hx, stringsCount, ih]

theorem ne_nil_of_stringsCount_pos (c : Char) (d : Str) (h : 0 < stringsCount c d) :
    d ≠ [] := by
  intro e
  rw [e] at h
  exact absurd h (by simp [stringsCount])

theorem walkLimit_toNat_le (domain : Str) :
    (walkLimit domain).toNat ≤ stringsCount '.' domain := by
  unfold walkLimit
  split <;> omega

/-! ## Lemmas on the directory -/

theorem find_writeFile (name content : Str) (dir : Dir) :
    (writeFile name content dir).find? (fun file => file.1 == name) = some (name, content) := by
  induction dir with
  | nil => simp [writeFile]
  | cons file rest ih =>
    unfold writeFile
    split
    · simp
    · rename_i hne
      split
      · simp
      · rw [List.find?_cons_of_neg _ (by simpa using hne)]
        exact ih

theorem readFile_writeFile_same (name content : Str) (dir : Dir) :
    readFile name (writeFile name content dir) = some content := by
  simp [readFile, find_writeFile]

theorem searchZoneFilesForOrigin_eq_none_iff (domain : Str) (dir : Dir) :
    searchZoneFilesForOrigin domain dir = none ↔
      ∀ file ∈ dir, fileMatches domain file.2 = false := by
  induction dir with
  | nil => simp [searchZoneFilesForOrigin]
  | cons file rest ih =>
    unfold searchZoneFilesForOrigin
    by_cases hm : fileMatches domain file.2 = true
    · simp [hm]
    · simp [hm, ih]

theorem searchZoneFilesForOrigin_eq_some_iff (domain f : Str) (dir : Dir) :
    searchZoneFilesForOrigin domain dir = some f ↔
      ∃ before file after, dir = before ++ file :: after ∧ file.1 = f ∧
        fileMatches domain file.2 = true ∧ ∀ g ∈ before, fileMatches domain g.2 = false := by
  induction dir with
  | nil => simp [searchZoneFilesForOrigin]
  | cons file rest ih =>
    unfold searchZoneFilesForOrigin
    by_cases hm : fileMatches domain file.2 = true
    · rw [if_pos hm]
      constructor
      · intro h
        exact ⟨[], file, rest, rfl, by simpa using h, hm, by simp⟩
      · rintro ⟨before, g, after, hd, hg, _, hb⟩
        cases before with
        | nil =>
          simp only [List.nil_append, List.cons.injEq] at hd
          rw [hd.1, hg]
        | cons b bs =>
          simp only [List.cons_append, List.cons.injEq] at hd
          have := hb b (List.mem_cons_self _ _)
          rw [← hd.1, hm] at this
          exact absurd this (by simp)
    · rw [if_neg hm, ih]
      constructor
      · rintro ⟨before, g, after, hd, hg, hgm, hb⟩
        refine ⟨file :: before, g, after, by simp [hd], hg, hgm, ?_⟩
        intro x hx
        rcases List.mem_cons.1 hx with h1 | h1
        · rw [h1]; simpa using hm
        · exact hb x h1
      · rintro ⟨before, g, after, hd, hg, hgm, hb⟩
        cases before with
        | nil =>
          simp only [List.nil_append, List.cons.injEq] at hd
          rw [hd.1] at hm
          exact absurd hgm hm
        | cons b bs =>
          simp only [List.cons_append, List.cons.injEq] at hd
          exact ⟨bs, g, after, hd.2, hg, hgm, fun x hx => hb x (List.mem_cons_of_mem _ hx)⟩

/-! ## Lemmas on the scanner -/

theorem scanFile_iff (re : Str) (lines : List Str) :
    scanFile re lines = true ↔
      ∃ before raw after, lines = before ++ raw :: after ∧
        (∀ l ∈ before, byteLen l < maxScanTokenSize ∧
          stringsContains (dropCR l) "$ORIGIN".toList = false) ∧
        byteLen raw < maxScanTokenSize ∧
        stringsContains (dropCR raw) "$ORIGIN".toList = true ∧ re <+: dropCR raw := by
  induction lines with
  | nil => simp [scanFile]
  | cons raw rest ih =>
    unfold scanFile
    by_cases hlong : maxScanTokenSize ≤ byteLen raw
    · rw [if_pos hlong]
      constructor
      · intro h; exact absurd h (by simp)
      · rintro ⟨before, r, after, hl, hb, hr, _, _⟩
        cases before with
        | nil =>
          simp only [List.nil_append, List.cons.injEq] at hl
          rw [← hl.1] at hr
          omega
        | cons b bs =>
          simp only [List.cons_append, List.cons.injEq] at hl
          have := (hb b (List.mem_cons_self _ _)).1
          rw [← hl.1] at this
          omega
    · rw [if_neg hlong]
      by_cases hc : stringsContains (dropCR raw) "$ORIGIN".toList = true
      · simp only [hc, if_true, reMatch, List.isPrefixOf_iff_prefix]
        constructor
        · intro h
          exact ⟨[], raw, rest, rfl, by simp, by omega, hc, h⟩
        · rintro ⟨before, r, after, hl, hb, _, _, hp⟩
          cases before with
          | nil =>
            simp only [List.nil_append, List.cons.injEq] at hl
            rw [hl.1]; exact hp
          | cons b bs =>
            simp only [List.cons_append, List.cons.injEq] at hl
            have := (hb b (List.mem_cons_self _ _)).2
            rw [← hl.1, hc] at this
            exact absurd this (by simp)
      · simp only [hc, Bool.false_eq_true, if_false, ih]
        constructor
        · rintro ⟨before, r, after, hl, hb, hr, hrc, hp⟩
          refine ⟨raw :: before, r, after, by simp [hl], ?_, hr, hrc, hp⟩
          intro l hlmem
          rcases List.mem_cons.1 hlmem with h1 | h1
          · subst h1
            exact ⟨by omega, by simpa using hc⟩
          · exact hb l h1
        · rintro ⟨before, r, after, hl, hb, hr, hrc, hp⟩
          cases before with
          | nil =>
            simp only [List.nil_append, List.cons.injEq] at hl
            rw [← hl.1] at hrc
            exact absurd hrc hc
          | cons b bs =>
            simp only [List.cons_append, List.cons.injEq] at hl
            exact ⟨bs, r, after, hl.2, fun l hlmem => hb l (List.mem_cons_of_mem _ hlmem),
              hr, hrc, hp⟩

theorem fileMatches_iff (domain content : Str) :
    fileMatches domain content = true ↔
      ∃ line, FirstOriginLine content line ∧ buildOriginRegex domain <+: line := by
  unfold fileMatches FirstOriginLine
  rw [scanFile_iff]
  constructor
  · rintro ⟨before, raw, after, hl, hb, hr, hc, hp⟩
    exact ⟨dropCR raw, ⟨before, raw, after, hl, rfl, hb, hr, hc⟩, hp⟩
  · rintro ⟨line, ⟨before, raw, after, hl, hline, hb, hr, hc⟩, hp⟩
    subst hline
    exact ⟨before, raw, after, hl, hb, hr, hc, hp⟩

/-! ## Lemmas on the record mutator -/

theorem newline_toList : "\n".toList = ['\n'] := rfl

theorem insertLoop_fst (value record : Str) (lines : List Str) :
    (insertLoop value record lines).1 =
      lines.map (fun l => if stringsContains l record then generateRecordLine value record
        else l) := by
  induction lines with
  | nil => rfl
  | cons line rest ih =>
    unfold insertLoop
    by_cases h : stringsContains line record = true <;> simp [h, ih]

theorem insertLoop_snd (value record : Str) (lines : List Str) :
    (insertLoop value record lines).2 = lines.any (fun l => stringsContains l record) := by
  induction lines with
  | nil => rfl
  | cons line rest ih =>
    unfold insertLoop
    by_cases h : stringsContains line record = true <;> simp [h, ih]

theorem cleanupLoop_fst (record : Str) (lines : List Str) :
    (cleanupLoop record lines).1 =
      lines.filter (fun l => !stringsContains l (record ++ " IN TXT".toList)) := by
  induction lines with
  | nil => rfl
  | cons line rest ih =>
    unfold cleanupLoop
    simp only []
    rw [ih]
    generalize record ++ " IN TXT".toList = pat
    by_cases h : stringsContains line pat = true <;> simp [h]

theorem cleanupLoop_snd (record : Str) (lines : List Str) :
    (cleanupLoop record lines).2 =
      lines.any (fun l => stringsContains l (record ++ " IN TXT".toList)) := by
  induction lines with
  | nil => rfl
  | cons line rest ih =>
    unfold cleanupLoop
    simp only []
    rw [ih]
    generalize record ++ " IN TXT".toList = pat
    by_cases h : stringsContains line pat = true <;> simp [h]

theorem generateRecordLine_no_newline (value record : Str) (hr : '\n' ∉ record)
    (hv : '\n' ∉ value) : '\n' ∉ generateRecordLine value record := by
  unfold generateRecordLine
  simp only [List.mem_append, not_or]
  exact ⟨⟨⟨hr, by decide⟩, hv⟩, by decide⟩

theorem generateRecordLine_contains (value record : Str) :
    stringsContains (generateRecordLine value record) record = true := by
  rw [stringsContains_iff]
  unfold generateRecordLine
  exact ⟨[], " IN TXT \"".toList ++ value ++ "\"".toList, by simp⟩

/-- The lines of the text written by `insertOrUpdateRecord`, for an owner and a value without
a newline: every line containing the owner is replaced, or one line is added at the end. -/
theorem insertOrUpdateText_lines (value record contents : Str) (hr : '\n' ∉ record)
    (hv : '\n' ∉ value) :
    stringsSplit '\n' (insertOrUpdateText value record contents) =
      if (stringsSplit '\n' contents).any (fun l => stringsContains l record) then
        (stringsSplit '\n' contents).map
          (fun l => if stringsContains l record then generateRecordLine value record else l)
      else stringsSplit '\n' contents ++ [generateRecordLine value record] := by
  have hg := generateRecordLine_no_newline value record hr hv
  have hsplit := not_mem_of_mem_stringsSplit '\n' contents
  have hne := stringsSplit_ne_nil '\n' contents
  unfold insertOrUpdateText
  simp only [insertLoop_fst, insertLoop_snd, newline_toList]
  split
  · apply stringsSplit_join
    · simpa using hne
    · intro l hl
      obtain ⟨l0, hl0, rfl⟩ := List.mem_map.1 hl
      split
      · exact hg
      · exact hsplit l0 hl0
  · rename_i hany
    have hmap : (stringsSplit '\n' contents).map
        (fun l => if stringsContains l record then generateRecordLine value record else l)
        = stringsSplit '\n' contents := by
      conv_rhs => rw [← List.map_id (stringsSplit '\n' contents)]
      apply List.map_congr_left
      intro l hl
      have : stringsContains l record = false := by
        simp only [List.any_eq_true, not_exists, not_and, Bool.not_eq_true] at hany
        exact hany l hl
      simp [this]
    rw [hmap]
    apply stringsSplit_join
    · simp
    · intro l hl
      rcases List.mem_append.1 hl with h | h
      · exact hsplit l h
      · rw [List.mem_singleton.1 h]; exact hg

theorem insertOrUpdateText_lines_eq_of_contains (value record contents : Str)
    (hr : '\n' ∉ record) (hv : '\n' ∉ value) :
    ∀ l ∈ stringsSplit '\n' (insertOrUpdateText value record contents),
      stringsContains l record = true → l = generateRecordLine value record := by
  rw [insertOrUpdateText_lines value record contents hr hv]
  intro l hl hc
  split at hl
  · obtain ⟨l0, _, rfl⟩ := List.mem_map.1 hl
    by_cases h0 : stringsContains l0 record = true
    · simp [h0]
    · simp only [h0, Bool.false_eq_true, if_false] at hc
  · rename_i hany
    rcases List.mem_append.1 hl with h | h
    · simp only [List.any_eq_true, not_exists, not_and, Bool.not_eq_true] at hany
      rw [hany l h] at hc
      exact absurd hc (by simp)
    · exact List.mem_singleton.1 h

theorem insertOrUpdateText_lines_countP (value record contents : Str)
    (hr : '\n' ∉ record) (hv : '\n' ∉ value) :
    (stringsSplit '\n' (insertOrUpdateText value record contents)).countP
        (fun l => stringsContains l record) =
      max 1 ((stringsSplit '\n' contents).countP (fun l => stringsContains l record)) := by
  rw [insertOrUpdateText_lines value record contents hr hv]
  split
  · rename_i hany
    rw [List.countP_map]
    have hcongr : (stringsSplit '\n' contents).countP
        ((fun l => stringsContains l record) ∘
          (fun l => if stringsContains l record then generateRecordLine value record else l)) =
        (stringsSplit '\n' contents).countP (fun l => stringsContains l record) := by
      apply List.countP_congr
      intro l _
      by_cases h0 : stringsContains l record = true
      · simp [h0, generateRecordLine_contains]
      · simp [h0]
    rw [hcongr]
    have hpos : 0 < (stringsSplit '\n' contents).countP (fun l => stringsContains l record) := by
      rw [List.countP_pos_iff]
      simpa using hany
    omega
  · rename_i hany
    have hzero : (stringsSplit '\n' contents).countP (fun l => stringsContains l record) = 0 := by
      rw [List.countP_eq_zero]
      simpa using hany
    rw [List.countP_append, hzero]
    simp [List.countP_cons, generateRecordLine_contains]

theorem insertOrUpdateText_lines_any (value record contents : Str)
    (hr : '\n' ∉ record) (hv : '\n' ∉ value) :
    (stringsSplit '\n' (insertOrUpdateText value record contents)).any
        (fun l => stringsContains l record) = true := by
  have h := insertOrUpdateText_lines_countP value record contents hr hv
  have hpos : 0 < (stringsSplit '\n' (insertOrUpdateText value record contents)).countP
      (fun l => stringsContains l record) := by omega
  rw [List.countP_pos_iff] at hpos
  simpa using hpos

theorem insertOrUpdateText_lines_length (value record contents : Str)
    (hr : '\n' ∉ record) (hv : '\n' ∉ value) :
    (stringsSplit '\n' (insertOrUpdateText value record contents)).length =
      (stringsSplit '\n' contents).length +
        (if (stringsSplit '\n' contents).any (fun l => stringsContains l record) then 0
          else 1) := by
  rw [insertOrUpdateText_lines value record contents hr hv]
  split <;> simp

/-- The operation `insertOrUpdateRecord` writes `insertOrUpdateText` of what it read. -/
theorem insertOrUpdateRecord_eq (zf : ZoneFile) (zoneFile contents : Str) (dir : Dir)
    (h : readFile zoneFile dir = some contents) :
    insertOrUpdateRecord zf zoneFile dir =
      (writeFile zoneFile
        (insertOrUpdateText zf.Value (recordOwner zoneFile zf.record) contents) dir, .ok ()) := by
  simp only [insertOrUpdateRecord, h]

/-- The operation `cleanupRecord` writes `cleanupText` of what it read, or returns its
error and writes nothing. -/
theorem cleanupRecord_eq (zf : ZoneFile) (zoneFile contents : Str) (dir : Dir)
    (h : readFile zoneFile dir = some contents) :
    cleanupRecord zf zoneFile dir =
      match cleanupText (recordOwner zoneFile zf.record) contents with
      | .error e => (dir, .error e)
      | .ok newContents => (writeFile zoneFile newContents dir, .ok ()) := by
  simp only [cleanupRecord, h]

theorem cleanupText_eq (record contents : Str) :
    cleanupText record contents =
      if (stringsSplit '\n' contents).any
          (fun l => stringsContains l (record ++ " IN TXT".toList)) then
        .ok (stringsJoin "\n".toList ((stringsSplit '\n' contents).filter
          (fun l => !stringsContains l (record ++ " IN TXT".toList))))
      else .error .recordNotFound := by
  simp only [cleanupText, cleanupLoop_fst, cleanupLoop_snd]

theorem not_contains_nil_in_txt (record : Str) :
    stringsContains [] (record ++ " IN TXT".toList) = false := by
  cases record <;> rfl

/-- The lines of the text written by a successful `cleanupRecord` do not contain
`<owner> IN TXT`. -/
theorem cleanupText_lines_clean (record contents out : Str)
    (h : cleanupText record contents = .ok out) :
    ∀ l ∈ stringsSplit '\n' out,
      stringsContains l (record ++ " IN TXT".toList) = false := by
  rw [cleanupText_eq] at h
  split at h
  · simp only [Except.ok.injEq] at h
    subst h
    by_cases hnil : (stringsSplit '\n' contents).filter
        (fun l => !stringsContains l (record ++ " IN TXT".toList)) = []
    · rw [hnil]
      intro l hl
      have : l = [] := by simpa [stringsJoin, stringsSplit] using hl
      rw [this]
      exact not_contains_nil_in_txt record
    · rw [newline_toList, stringsSplit_join _ _ hnil]
      · intro l hl
        simpa using (List.mem_filter.1 hl).2
      · intro l hl
        exact not_mem_of_mem_stringsSplit '\n' contents l (List.mem_filter.1 hl).1
  · simp at h

/-! ## Lemmas on the serial incrementer -/

theorem digitChar_plain : ∀ m, m < 10 → Nat.digitChar m ≠ '\n' ∧ Nat.digitChar m ≠ 'I' := by
  decide

theorem toDigitsCore_plain : ∀ (fuel n : Nat) (acc : List Char),
    (∀ ch ∈ acc, ch ≠ '\n' ∧ ch ≠ 'I') →
    ∀ ch ∈ Nat.toDigitsCore 10 fuel n acc, ch ≠ '\n' ∧ ch ≠ 'I' := by
  intro fuel
  induction fuel with
  | zero =>
    intro n acc hacc ch hch
    exact hacc ch (by simpa [Nat.toDigitsCore] using hch)
  | succ fuel ih =>
    intro n acc hacc ch hch
    have hcons : ∀ c ∈ Nat.digitChar (n % 10) :: acc, c ≠ '\n' ∧ c ≠ 'I' := by
      intro c hc
      rcases List.mem_cons.1 hc with h | h
      · rw [h]; exact digitChar_plain _ (Nat.mod_lt _ (by decide))
      · exact hacc c h
    unfold Nat.toDigitsCore at hch
    simp only at hch
    split at hch
    · exact hcons ch hch
    · exact ih _ _ hcons ch hch

theorem formatInt_plain (i : Int) : ∀ ch ∈ formatInt i, ch ≠ '\n' ∧ ch ≠ 'I' := by
  intro ch hch
  unfold formatInt at hch
  split at hch
  · rcases List.mem_cons.1 hch with h | h
    · rw [h]; decide
    · exact toDigitsCore_plain _ _ [] (by simp) ch h
  · exact toDigitsCore_plain _ _ [] (by simp) ch hch

theorem serialSubmatch_lead (line lead digits : Str)
    (h : serialSubmatch line = some (lead, digits)) : lead = line.takeWhile isBlank := by
  unfold serialSubmatch at h
  simp only at h
  split at h
  · simp at h
  · split at h
    · simp only [Option.some.injEq, Prod.mk.injEq] at h
      exact h.1.symm
    · simp at h

theorem isBlank_plain (ch : Char) (h : isBlank ch = true) : ch ≠ '\n' ∧ ch ≠ 'I' := by
  unfold isBlank at h
  simp only [Bool.or_eq_true, beq_iff_eq] at h
  rcases h with h | h <;> rw [h] <;> decide

/-- The line written by `updateZoneSerial` has neither a newline nor the letter `I`. -/
theorem serialLine_plain (line lead digits : Str) (serial : Int)
    (h : serialSubmatch line = some (lead, digits)) :
    ∀ ch ∈ lead ++ formatInt (int64Succ serial) ++ " ; serial".toList,
      ch ≠ '\n' ∧ ch ≠ 'I' := by
  intro ch hch
  rcases List.mem_append.1 hch with h1 | h1
  · rcases List.mem_append.1 h1 with h2 | h2
    · rw [serialSubmatch_lead line lead digits h] at h2
      exact isBlank_plain ch (List.mem_takeWhile_imp h2)
    · exact formatInt_plain _ ch h2
  · have hlit : ∀ c ∈ " ; serial".toList, c ≠ '\n' ∧ c ≠ 'I' := by decide
    exact hlit ch h1

theorem serialLoop_mem : ∀ (ls out : List Str), serialLoop ls = .ok out →
    out.length = ls.length ∧
    ∀ l ∈ out, l ∈ ls ∨ ∀ ch ∈ l, ch ≠ '\n' ∧ ch ≠ 'I' := by
  intro ls
  induction ls with
  | nil =>
    intro out h
    simp only [serialLoop, Except.ok.injEq] at h
    subst h
    simp
  | cons line rest ih =>
    intro out h
    have hskip : (serialLoop rest).map (fun ls => line :: ls) = .ok out →
        out.length = (line :: rest).length ∧
        ∀ l ∈ out, l ∈ line :: rest ∨ ∀ ch ∈ l, ch ≠ '\n' ∧ ch ≠ 'I' := by
      intro hm
      cases hr : serialLoop rest with
      | error e => rw [hr] at hm; simp [Except.map] at hm
      | ok r =>
        rw [hr] at hm
        simp only [Except.map, Except.ok.injEq] at hm
        subst hm
        obtain ⟨hlen, hmem⟩ := ih r hr
        refine ⟨by simp [hlen], ?_⟩
        intro l hl
        rcases List.mem_cons.1 hl with h1 | h1
        · left; rw [h1]; exact List.mem_cons_self _ _
        · rcases hmem l h1 with h2 | h2
          · left; exact List.mem_cons_of_mem _ h2
          · right; exact h2
    unfold serialLoop at h
    cases hsub : serialSubmatch line with
    | none =>
      rw [hsub] at h
      exact hskip h
    | some p =>
      obtain ⟨lead, digits⟩ := p
      rw [hsub] at h
      simp only at h
      split at h
      · exact hskip h
      · cases hp : parseInt64 digits with
        | error e => rw [hp] at h; simp at h
        | ok serial =>
          rw [hp] at h
          simp only [Except.ok.injEq] at h
          subst h
          refine ⟨by simp, ?_⟩
          intro l hl
          rcases List.mem_cons.1 hl with h1 | h1
          · right; rw [h1]; exact serialLine_plain line lead digits serial hsub
          · left; exact List.mem_cons_of_mem _ h1

theorem not_contains_in_txt_of_plain (record l : Str) (h : ∀ ch ∈ l, ch ≠ '\n' ∧ ch ≠ 'I') :
    stringsContains l (record ++ " IN TXT".toList) = false := by
  rw [stringsContains_eq_false_iff]
  intro hin
  have hmem : 'I' ∈ record ++ " IN TXT".toList :=
    List.mem_append_right _ (by decide)
  exact (h 'I' (hin.subset hmem)).2 rfl

/-- After a serial bump, the lines of the written text are lines of the text read or the
rewritten serial line, which does not contain `<owner> IN TXT`. -/
theorem updateSerialText_lines_clean (record contents out : Str)
    (h : updateSerialText contents = .ok out)
    (hclean : ∀ l ∈ stringsSplit '\n' contents,
      stringsContains l (record ++ " IN TXT".toList) = false) :
    ∀ l ∈ stringsSplit '\n' out,
      stringsContains l (record ++ " IN TXT".toList) = false := by
  unfold updateSerialText at h
  cases hl : serialLoop (stringsSplit '\n' contents) with
  | error e => rw [hl] at h; simp [Except.map] at h
  | ok ls =>
    rw [hl] at h
    simp only [Except.map, Except.ok.injEq] at h
    subst h
    obtain ⟨hlen, hmem⟩ := serialLoop_mem _ _ hl
    have hne : ls ≠ [] := by
      intro e
      rw [e] at hlen
      exact stringsSplit_ne_nil '\n' contents (List.length_eq_zero.1 hlen.symm)
    have hnl : ∀ l ∈ ls, '\n' ∉ l := by
      intro l hlmem
      rcases hmem l hlmem with h1 | h1
      · exact not_mem_of_mem_stringsSplit '\n' contents l h1
      · exact fun hin => (h1 '\n' hin).1 rfl
    rw [newline_toList, stringsSplit_join _ _ hne hnl]
    intro l hlmem
    rcases hmem l hlmem with h1 | h1
    · exact hclean l h1
    · exact not_contains_in_txt_of_plain record l h1

theorem updateZoneSerial_eq (zoneFile contents : Str) (dir : Dir)
    (h : readFile zoneFile dir = some contents) :
    updateZoneSerial zoneFile dir =
      match updateSerialText contents with
      | .error e => (dir, .error e)
      | .ok newContents => (writeFile zoneFile newContents dir, .ok ()) := by
  simp only [updateZoneSerial, h]

/-! ## Lemmas on the resolver -/

theorem walkLoop_spec (files : Dir) : ∀ (n : Nat) (d : Str), n ≤ stringsCount '.' d →
    (∃ k f, 1 ≤ k ∧ k ≤ n ∧
        (∀ j, 1 ≤ j → j < k → searchZoneFilesForOrigin (shiftDomain^[j] d) files = none) ∧
        searchZoneFilesForOrigin (shiftDomain^[k] d) files = some f ∧
        walkLoop files n d = (shiftDomain^[k] d, some f)) ∨
    ((∀ j, 1 ≤ j → j ≤ n → searchZoneFilesForOrigin (shiftDomain^[j] d) files = none) ∧
        walkLoop files n d = (shiftDomain^[n] d, none)) := by
  intro n
  induction n with
  | zero =>
    intro d _
    right
    exact ⟨fun j h1 h2 => by omega, rfl⟩
  | succ n ih =>
    intro d hd
    have hne : d ≠ shiftDomain d :=
      shiftDomain_ne_self d (ne_nil_of_stringsCount_pos '.' d (by omega))
    have hcount : n ≤ stringsCount '.' (shiftDomain d) := by
      rw [stringsCount_shiftDomain]; omega
    unfold walkLoop
    simp only [if_neg hne]
    cases hs : searchZoneFilesForOrigin (shiftDomain d) files with
    | some f =>
      left
      exact ⟨1, f, le_refl _, by omega, fun j h1 h2 => by omega, by simpa using hs, by simp⟩
    | none =>
      simp only
      rcases ih (shiftDomain d) hcount with ⟨k, f, hk1, hk2, hbefore, hat, hw⟩ | ⟨hall, hw⟩
      · left
        refine ⟨k + 1, f, by omega, by omega, ?_, ?_, ?_⟩
        · intro j hj1 hj2
          rcases Nat.lt_or_ge 1 j with h | h
          · obtain ⟨i, rfl⟩ : ∃ i, j = i + 1 := ⟨j - 1, by omega⟩
            rw [Function.iterate_succ_apply]
            exact hbefore i (by omega) (by omega)
          · have : j = 1 := by omega
            subst this
            simpa using hs
        · rw [Function.iterate_succ_apply]; exact hat
        · rw [Function.iterate_succ_apply]; exact hw
      · right
        refine ⟨?_, ?_⟩
        · intro j hj1 hj2
          rcases Nat.lt_or_ge 1 j with h | h
          · obtain ⟨i, rfl⟩ : ∃ i, j = i + 1 := ⟨j - 1, by omega⟩
            rw [Function.iterate_succ_apply]
            exact hall i (by omega) (by omega)
          · have : j = 1 := by omega
            subst this
            simpa using hs
        · rw [Function.iterate_succ_apply]; exact hw

theorem createAndResolve_created (now : Str) (zf : ZoneFile) (domain : Str) (dir : Dir) :
    (createAndResolve now zf domain dir).created = true := by
  unfold createAndResolve
  split
  · rfl
  · split <;> rfl

/-- Both outcomes of `FindZoneFile`: the first domain of the walk with a match decides, and
without any match the create branch runs for the last domain or the call fails. -/
theorem findZoneFile_cases (now : Str) (zf : ZoneFile) (create : Bool) (dir : Dir) :
    (∃ k f, k ≤ walkDepth zf.record ∧
        (∀ j, j < k → searchZoneFilesForOrigin (walkDomain zf.record j) dir = none) ∧
        searchZoneFilesForOrigin (walkDomain zf.record k) dir = some f ∧
        FindZoneFile now zf create dir = ⟨dir, false, .ok f⟩) ∨
    ((∀ j, j ≤ walkDepth zf.record →
        searchZoneFilesForOrigin (walkDomain zf.record j) dir = none) ∧
      FindZoneFile now zf create dir =
        if create then
          createAndResolve now zf (walkDomain zf.record (walkDepth zf.record)) dir
        else ⟨dir, false, .error .zoneNotFound⟩) := by
  unfold walkDepth walkDomain
  cases h0 : searchZoneFilesForOrigin (shiftDomain zf.record) dir with
  | some f =>
    left
    exact ⟨0, f, Nat.zero_le _, fun j hj => by omega, by simpa using h0,
      by simp only [FindZoneFile, h0]⟩
  | none =>
    rcases walkLoop_spec dir (walkLimit (shiftDomain zf.record)).toNat (shiftDomain zf.record)
      (walkLimit_toNat_le _) with ⟨k, f, hk1, hk2, hbefore, hat, hw⟩ | ⟨hall, hw⟩
    · left
      refine ⟨k, f, hk2, ?_, hat, ?_⟩
      · intro j hj
        rcases Nat.eq_zero_or_pos j with h | h
        · subst h; simpa using h0
        · exact hbefore j h hj
      · simp only [FindZoneFile, h0, hw]
    · right
      refine ⟨?_, ?_⟩
      · intro j hj
        rcases Nat.eq_zero_or_pos j with h | h
        · subst h; simpa using h0
        · exact hall j h hj
      · cases create with
        | false => simp [FindZoneFile, h0, hw]
        | true => simp only [FindZoneFile, h0, hw, if_true]

/-! ## Properties of the resolver -/

/-- C1: when `FindZoneFile` returns a file without having created one, that file matches
some domain of the walk (the record name without its leftmost label, shifted `k` more times,
`k` within the depth limit), it is the file the scanner finds for that domain, and no file
of the directory matches an earlier, more specific domain of the walk. -/
theorem findZoneFile_existing_most_specific (now : Str) (zf : ZoneFile) (create : Bool)
    (dir : Dir) (f : Str)
    (hres : (FindZoneFile now zf create dir).result = .ok f)
    (hnew : (FindZoneFile now zf create dir).created = false) :
    ∃ k, k ≤ walkDepth zf.record ∧
      (∃ file ∈ dir, file.1 = f ∧ fileMatches (walkDomain zf.record k) file.2 = true) ∧
      searchZoneFilesForOrigin (walkDomain zf.record k) dir = some f ∧
      ∀ j, j < k → ∀ file ∈ dir, fileMatches (walkDomain zf.record j) file.2 = false := by
  rcases findZoneFile_cases now zf create dir with ⟨k, g, hk, hbefore, hat, heq⟩ | ⟨_, heq⟩
  · rw [heq] at hres
    have hfg : g = f := by simpa using hres
    subst hfg
    refine ⟨k, hk, ?_, hat, ?_⟩
    · obtain ⟨before, file, after, hd, hname, hm, _⟩ :=
        (searchZoneFilesForOrigin_eq_some_iff _ _ _).1 hat
      exact ⟨file, by simp [hd], hname, hm⟩
    · intro j hj
      exact (searchZoneFilesForOrigin_eq_none_iff _ _).1 (hbefore j hj)
  · rw [heq] at hres hnew
    cases create with
    | false => simp at hres
    | true => simp [createAndResolve_created] at hnew

/-- C1, scenario: with only `db.example.com` (origin `example.com.`) in the directory, the
record `_acme-challenge.foo.example.com` resolves to `db.example.com`, an existing file. -/
theorem findZoneFile_existing_most_specific_witness :
    (FindZoneFile exNow exRequest true exDir).result = .ok "db.example.com".toList ∧
    (FindZoneFile exNow exRequest true exDir).created = false ∧
    ∃ k, k ≤ walkDepth exRequest.record ∧
      (∃ file ∈ exDir, file.1 = "db.example.com".toList ∧
        fileMatches (walkDomain exRequest.record k) file.2 = true) ∧
      searchZoneFilesForOrigin (walkDomain exRequest.record k) exDir
        = some "db.example.com".toList ∧
      ∀ j, j < k → ∀ file ∈ exDir, fileMatches (walkDomain exRequest.record j) file.2 = false :=
  ⟨by decide, by decide,
    findZoneFile_existing_most_specific exNow exRequest true exDir "db.example.com".toList
      (by decide) (by decide)⟩

/-- C4: `FindZoneFile` with `createIfMissing = false` returns the error "unable to find
existing zone file" exactly when no file of the directory matches any domain of the walk;
it never returns another error, creates nothing and leaves the directory as it was. -/
theorem findZoneFile_without_create (now : Str) (zf : ZoneFile) (dir : Dir) :
    ((FindZoneFile now zf false dir).result = .error .zoneNotFound ↔
      ∀ k, k ≤ walkDepth zf.record →
        ∀ file ∈ dir, fileMatches (walkDomain zf.record k) file.2 = false) ∧
    (∀ e, (FindZoneFile now zf false dir).result = .error e → e = .zoneNotFound) ∧
    (FindZoneFile now zf false dir).dir = dir ∧
    (FindZoneFile now zf false dir).created = false := by
  rcases findZoneFile_cases now zf false dir with ⟨k, g, hk, _, hat, heq⟩ | ⟨hall, heq⟩
  · rw [heq]
    refine ⟨⟨fun h => by simp at h, fun h => ?_⟩, fun e h => by simp at h, rfl, rfl⟩
    have := (searchZoneFilesForOrigin_eq_none_iff _ _).2 (h k hk)
    rw [this] at hat
    exact absurd hat (by simp)
  · simp only [Bool.false_eq_true, if_false] at heq
    rw [heq]
    refine ⟨⟨fun _ k hk => (searchZoneFilesForOrigin_eq_none_iff _ _).1 (hall k hk),
      fun _ => rfl⟩, fun e h => ?_, rfl, rfl⟩
    simp only [Except.error.injEq] at h
    exact h.symm

/-- C2, as stated, fails: on the empty directory the record `_acme-challenge.lab.lan` does
not resolve to `db.lab.lan`, and no file of that name exists afterwards. -/
theorem lab_scenario_creates_no_db_lab_lan :
    (FindZoneFile exNow labRequest true []).result ≠ .ok "db.lab.lan".toList ∧
    readFile "db.lab.lan".toList (FindZoneFile exNow labRequest true []).dir = none := by
  decide

set_option maxRecDepth 1000000 in
/-- C2, amended: on the empty directory, resolving `_acme-challenge.lab.lan` with
`createIfMissing = true` creates `db.lan` (origin `lan`: the local-reserved suffix extends
the walk by one step), holding the SOA/NS/A template without any TXT line, and a following
`insertOrUpdateRecord` with value `tok1` on the resolved file appends the line
`_acme-challenge.lab IN TXT "tok1"`. -/
theorem lab_scenario_creates_db_lan :
    FindZoneFile exNow labRequest true [] =
      ⟨[("db.lan".toList, zoneTemplate exNow "172.19.0.53".toList "lan".toList)], true,
        .ok "db.lan".toList⟩ ∧
    (∀ line ∈ stringsSplit '\n' (zoneTemplate exNow "172.19.0.53".toList "lan".toList),
      stringsContains line "TXT".toList = false) ∧
    insertOrUpdateRecord labRequest "db.lan".toList
        [("db.lan".toList, zoneTemplate exNow "172.19.0.53".toList "lan".toList)] =
      ([("db.lan".toList, zoneTemplate exNow "172.19.0.53".toList "lan".toList
          ++ "\n_acme-challenge.lab IN TXT \"tok1\"".toList)], .ok ()) := by
  decide

/-! ## Properties of the scanner -/

/-- C5, as stated, fails: a file whose only `$ORIGIN` line declares the longer origin
`example.com.au.` is returned as the match for the origin `example.com`. -/
theorem search_matches_longer_origin :
    stringsSplit '\n' "$ORIGIN example.com.au.\n".toList
      = ["$ORIGIN example.com.au.".toList, []] ∧
    "$ORIGIN example.com.au.".toList ≠ "$ORIGIN example.com.".toList ∧
    searchZoneFilesForOrigin "example.com".toList
        [("db.example.com.au".toList, "$ORIGIN example.com.au.\n".toList)]
      = some "db.example.com.au".toList := by
  decide

/-- C5, amended: `searchZoneFilesForOrigin` returns the first file in listing order whose
first line containing `$ORIGIN` (as the scanner reads it) starts with `$ORIGIN <d>.`, whatever
follows the final dot, and returns not-found exactly when no file has such a line. -/
theorem search_first_origin_line_starts_with (domain : Str) (files : Dir) :
    (∀ f, searchZoneFilesForOrigin domain files = some f ↔
      ∃ before file after, files = before ++ file :: after ∧ file.1 = f ∧
        (∃ line, FirstOriginLine file.2 line ∧
          "$ORIGIN ".toList ++ domain ++ ".".toList <+: line) ∧
        ∀ g ∈ before, ¬ ∃ line, FirstOriginLine g.2 line ∧
          "$ORIGIN ".toList ++ domain ++ ".".toList <+: line) ∧
    (searchZoneFilesForOrigin domain files = none ↔
      ∀ g ∈ files, ¬ ∃ line, FirstOriginLine g.2 line ∧
        "$ORIGIN ".toList ++ domain ++ ".".toList <+: line) := by
  have key : ∀ content : Str, fileMatches domain content = false ↔
      ¬ ∃ line, FirstOriginLine content line ∧
        "$ORIGIN ".toList ++ domain ++ ".".toList <+: line := by
    intro content
    rw [← Bool.not_eq_true, fileMatches_iff]
    rfl
  refine ⟨fun f => ?_, ?_⟩
  · rw [searchZoneFilesForOrigin_eq_some_iff]
    constructor
    · rintro ⟨before, file, after, hd, hf, hm, hb⟩
      exact ⟨before, file, after, hd, hf, (fileMatches_iff _ _).1 hm,
        fun g hg => (key g.2).1 (hb g hg)⟩
    · rintro ⟨before, file, after, hd, hf, hm, hb⟩
      exact ⟨before, file, after, hd, hf, (fileMatches_iff _ _).2 hm,
        fun g hg => (key g.2).2 (hb g hg)⟩
  · rw [searchZoneFilesForOrigin_eq_none_iff]
    exact ⟨fun h g hg => (key g.2).1 (h g hg), fun h g hg => (key g.2).2 (h g hg)⟩

/-! ## Properties of the record mutator -/

/-- C6: for an owner and a value without a newline and a text none of whose lines contains
the owner, `insertOrUpdateRecord` writes the original lines, each unchanged and in its
place, followed by the one new last line `<owner> IN TXT "<value>"`. -/
theorem insertOrUpdate_appends_one_line (contents owner value : Str)
    (hown : '\n' ∉ owner) (hval : '\n' ∉ value)
    (hnone : ∀ line ∈ stringsSplit '\n' contents, stringsContains line owner = false) :
    stringsSplit '\n' (insertOrUpdateText value owner contents) =
      stringsSplit '\n' contents ++
        [owner ++ " IN TXT \"".toList ++ value ++ "\"".toList] := by
  rw [insertOrUpdateText_lines value owner contents hown hval, if_neg]
  · rfl
  · simpa using hnone

/-- C6, scenario: a zone text without the owner gets the record as its new last line. -/
theorem insertOrUpdate_appends_one_line_witness :
    '\n' ∉ "_acme-challenge.foo".toList ∧ '\n' ∉ "v1".toList ∧
    (∀ line ∈ stringsSplit '\n' "$ORIGIN example.com.\n".toList,
      stringsContains line "_acme-challenge.foo".toList = false) ∧
    stringsSplit '\n'
        (insertOrUpdateText "v1".toList "_acme-challenge.foo".toList
          "$ORIGIN example.com.\n".toList) =
      stringsSplit '\n' "$ORIGIN example.com.\n".toList ++
        ["_acme-challenge.foo".toList ++ " IN TXT \"".toList ++ "v1".toList ++ "\"".toList] :=
  ⟨by decide, by decide, by decide,
    insertOrUpdate_appends_one_line "$ORIGIN example.com.\n".toList
      "_acme-challenge.foo".toList "v1".toList (by decide) (by decide) (by decide)⟩

/-- C7, as stated, fails: when two lines of the text contain the owner, two presents leave
two TXT lines for that owner. -/
theorem insertOrUpdate_twice_leaves_two_lines :
    stringsSplit '\n'
        (insertOrUpdateText "2".toList "x".toList
          (insertOrUpdateText "1".toList "x".toList
            "x IN TXT \"a\"\nx IN TXT \"b\"".toList)) =
      ["x IN TXT \"2\"".toList, "x IN TXT \"2\"".toList] := by
  decide

/-- C7, amended: for an owner and values without a newline, after `insertOrUpdateRecord` with
`v1` and then with `v2` every line containing the owner is `<owner> IN TXT "<v2>"`; there are
as many such lines as lines of the original text contained the owner, and one when none did
(so exactly one when the original had at most one); the number of lines grows by one when no
original line contained the owner and is unchanged otherwise. -/
theorem insertOrUpdate_twice (contents owner v1 v2 : Str)
    (hown : '\n' ∉ owner) (h1 : '\n' ∉ v1) (h2 : '\n' ∉ v2) :
    (∀ l ∈ stringsSplit '\n'
        (insertOrUpdateText v2 owner (insertOrUpdateText v1 owner contents)),
      stringsContains l owner = true →
        l = owner ++ " IN TXT \"".toList ++ v2 ++ "\"".toList) ∧
    (stringsSplit '\n'
        (insertOrUpdateText v2 owner (insertOrUpdateText v1 owner contents))).countP
        (fun l => stringsContains l owner) =
      max 1 ((stringsSplit '\n' contents).countP (fun l => stringsContains l owner)) ∧
    (stringsSplit '\n'
        (insertOrUpdateText v2 owner (insertOrUpdateText v1 owner contents))).length =
      (stringsSplit '\n' contents).length +
        (if (stringsSplit '\n' contents).any (fun l => stringsContains l owner) then 0
          else 1) := by
  refine ⟨?_, ?_, ?_⟩
  · exact insertOrUpdateText_lines_eq_of_contains v2 owner _ hown h2
  · rw [insertOrUpdateText_lines_countP v2 owner _ hown h2,
      insertOrUpdateText_lines_countP v1 owner _ hown h1]
    omega
  · rw [insertOrUpdateText_lines_length v2 owner _ hown h2,
      insertOrUpdateText_lines_any v1 owner _ hown h1,
      insertOrUpdateText_lines_length v1 owner _ hown h1]
    simp

/-- C7, scenario: a text with one line for the owner keeps one line, with the second
value. -/
theorem insertOrUpdate_twice_witness :
    '\n' ∉ "x".toList ∧ '\n' ∉ "1".toList ∧ '\n' ∉ "2".toList ∧
    stringsSplit '\n'
        (insertOrUpdateText "2".toList "x".toList
          (insertOrUpdateText "1".toList "x".toList "a\nx IN TXT \"0\"".toList)) =
      ["a".toList, "x IN TXT \"2\"".toList] ∧
    (stringsSplit '\n'
        (insertOrUpdateText "2".toList "x".toList
          (insertOrUpdateText "1".toList "x".toList "a\nx IN TXT \"0\"".toList))).countP
        (fun l => stringsContains l "x".toList) =
      max 1 ((stringsSplit '\n' "a\nx IN TXT \"0\"".toList).countP
        (fun l => stringsContains l "x".toList)) :=
  ⟨by decide, by decide, by decide, by decide,
    (insertOrUpdate_twice "a\nx IN TXT \"0\"".toList "x".toList "1".toList "2".toList
      (by decide) (by decide) (by decide)).2.1⟩

/-- C8, as stated, fails: a line that contains the owner and the token `IN TXT` apart from
each other (a TTL between them) survives a successful cleanup. -/
theorem cleanup_keeps_line_with_ttl :
    cleanupText "x".toList "x 300 IN TXT \"a\"\nx IN TXT \"b\"".toList
      = .ok "x 300 IN TXT \"a\"".toList ∧
    stringsContains "x 300 IN TXT \"a\"".toList "x".toList = true ∧
    stringsContains "x 300 IN TXT \"a\"".toList "IN TXT".toList = true := by
  decide

/-- C8, amended: a successful `cleanupRecord` found a line containing the contiguous text
`<owner> IN TXT`, and writes back the lines that do not contain it, unchanged and in order,
joined by newlines; no line of the written text contains `<owner> IN TXT`. -/
theorem cleanup_removes_owner_in_txt_lines (contents owner out : Str)
    (h : cleanupText owner contents = .ok out) :
    out = stringsJoin "\n".toList ((stringsSplit '\n' contents).filter
      (fun l => !stringsContains l (owner ++ " IN TXT".toList))) ∧
    (∃ l ∈ stringsSplit '\n' contents,
      stringsContains l (owner ++ " IN TXT".toList) = true) ∧
    ∀ l ∈ stringsSplit '\n' out, stringsContains l (owner ++ " IN TXT".toList) = false := by
  refine ⟨?_, ?_, cleanupText_lines_clean owner contents out h⟩
  · rw [cleanupText_eq] at h
    split at h
    · simp only [Except.ok.injEq] at h
      exact h.symm
    · simp at h
  · rw [cleanupText_eq] at h
    split at h
    · rename_i hany
      simpa using hany
    · simp at h

/-- C8, scenario: the record line is removed and the other line is kept. -/
theorem cleanup_removes_owner_in_txt_lines_witness :
    cleanupText "x".toList "a\nx IN TXT \"b\"".toList = .ok "a".toList ∧
    "a".toList = stringsJoin "\n".toList ((stringsSplit '\n' "a\nx IN TXT \"b\"".toList).filter
      (fun l => !stringsContains l ("x".toList ++ " IN TXT".toList))) :=
  ⟨by decide,
    (cleanup_removes_owner_in_txt_lines "a\nx IN TXT \"b\"".toList "x".toList "a".toList
      (by decide)).1⟩

/-! ## Properties of `RemoveRecord` -/

theorem findZoneFile_false_dir (now : Str) (zf : ZoneFile) (dir : Dir) :
    (FindZoneFile now zf false dir).dir = dir := by
  rcases findZoneFile_cases now zf false dir with ⟨_, _, _, _, _, heq⟩ | ⟨_, heq⟩
  · rw [heq]
  · rw [heq]; rfl

theorem removeRecord_eq (now : Str) (zf : ZoneFile) (dir : Dir) (f : Str)
    (hf : (FindZoneFile now zf false dir).result = .ok f) :
    RemoveRecord now zf dir =
      match cleanupRecord zf f dir with
      | (dir1, .error e) => (dir1, .error e)
      | (dir1, .ok _) => updateZoneSerial f dir1 := by
  simp only [RemoveRecord, hf, findZoneFile_false_dir]

theorem cleanupText_eq_error (record contents : Str)
    (h : ∀ l ∈ stringsSplit '\n' contents,
      stringsContains l (record ++ " IN TXT".toList) = false) :
    cleanupText record contents = .error .recordNotFound := by
  rw [cleanupText_eq, if_neg]
  simpa using h

/-- C9: when the zone file of the record is found and none of its lines is a record line
(contains `<owner> IN TXT`), `RemoveRecord` returns the record-not-found error and leaves
the directory, hence the zone file, as it was: no line removed, no serial bump. -/
theorem removeRecord_without_record_line (now : Str) (zf : ZoneFile) (dir : Dir)
    (f contents : Str)
    (hfind : (FindZoneFile now zf false dir).result = .ok f)
    (hread : readFile f dir = some contents)
    (hnone : ∀ line ∈ stringsSplit '\n' contents,
      stringsContains line (recordOwner f zf.record ++ " IN TXT".toList) = false) :
    RemoveRecord now zf dir = (dir, .error .recordNotFound) := by
  rw [removeRecord_eq now zf dir f hfind, cleanupRecord_eq zf f contents dir hread,
    cleanupText_eq_error _ _ hnone]

/-- C9, scenario: `db.example.com` is found for `_acme-challenge.foo.example.com` but holds
no record line; the cleanup fails and the directory is unchanged. -/
theorem removeRecord_without_record_line_witness :
    (FindZoneFile exNow exRequest false exDir).result = .ok "db.example.com".toList ∧
    readFile "db.example.com".toList exDir = some "$ORIGIN example.com.\n".toList ∧
    RemoveRecord exNow exRequest exDir = (exDir, .error .recordNotFound) :=
  ⟨by decide, by decide,
    removeRecord_without_record_line exNow exRequest exDir "db.example.com".toList
      "$ORIGIN example.com.\n".toList (by decide) (by decide) (by decide)⟩

/-- C10, as stated, fails: when the removed line is the `$ORIGIN` line of the zone file, the
first `RemoveRecord` succeeds and the second one fails with the zone-not-found error, not
with record-not-found. -/
theorem removeRecord_twice_zone_not_found :
    RemoveRecord exNow xRequest commentDir = ([("db.example.com".toList, [])], .ok ()) ∧
    RemoveRecord exNow xRequest [("db.example.com".toList, [])]
      = ([("db.example.com".toList, [])], .error .zoneNotFound) := by
  decide

/-- C10, amended: if `RemoveRecord` succeeds on the zone file `f`, then a second
`RemoveRecord` for the same record name against the resulting directory, when it resolves
to the same zone file `f`, fails with the record-not-found error and changes nothing. -/
theorem removeRecord_twice_same_zone (now : Str) (zf : ZoneFile) (dir dir1 : Dir) (f : Str)
    (hfirst : RemoveRecord now zf dir = (dir1, .ok ()))
    (hf0 : (FindZoneFile now zf false dir).result = .ok f)
    (hf1 : (FindZoneFile now zf false dir1).result = .ok f) :
    RemoveRecord now zf dir1 = (dir1, .error .recordNotFound) := by
  rw [removeRecord_eq now zf dir f hf0] at hfirst
  cases hread : readFile f dir with
  | none => simp [cleanupRecord, hread] at hfirst
  | some c =>
    rw [cleanupRecord_eq zf f c dir hread] at hfirst
    cases hclean : cleanupText (recordOwner f zf.record) c with
    | error e => simp [hclean] at hfirst
    | ok c1 =>
      rw [hclean] at hfirst
      simp only at hfirst
      rw [updateZoneSerial_eq f c1 _ (readFile_writeFile_same f c1 dir)] at hfirst
      cases hserial : updateSerialText c1 with
      | error e => simp [hserial] at hfirst
      | ok c2 =>
        rw [hserial] at hfirst
        simp only [Prod.mk.injEq, and_true] at hfirst
        have hread1 : readFile f dir1 = some c2 := by
          rw [← hfirst]
          exact readFile_writeFile_same f c2 _
        have hlines := updateSerialText_lines_clean (recordOwner f zf.record) c1 c2 hserial
          (cleanupText_lines_clean _ c c1 hclean)
        rw [removeRecord_eq now zf dir1 f hf1, cleanupRecord_eq zf f c2 dir1 hread1,
          cleanupText_eq_error _ _ hlines]

set_option maxRecDepth 100000 in
/-- C10, scenario: the record line of `x` is removed from `db.example.com` and the serial
bumped; the second cleanup finds the same zone file and no record line. -/
theorem removeRecord_twice_same_zone_witness :
    RemoveRecord exNow xRequest xDir =
      ([("db.example.com".toList,
        "$ORIGIN example.com.\n          2024060101 ; serial".toList)], .ok ()) ∧
    (FindZoneFile exNow xRequest false xDir).result = .ok "db.example.com".toList ∧
    RemoveRecord exNow xRequest
        [("db.example.com".toList, "$ORIGIN example.com.\n          2024060101 ; serial".toList)]
      = ([("db.example.com".toList,
          "$ORIGIN example.com.\n          2024060101 ; serial".toList)],
        .error .recordNotFound) :=
  ⟨by decide, by decide,
    removeRecord_twice_same_zone exNow xRequest xDir
      [("db.example.com".toList, "$ORIGIN example.com.\n          2024060101 ; serial".toList)]
      "db.example.com".toList (by decide) (by decide) (by decide)⟩

/-! ## Properties of the domain walker -/

theorem shiftDomain_append_dot (pre post : Str) (h : '.' ∉ pre) :
    shiftDomain (pre ++ '.' :: post) = post := by
  induction pre with
  | nil => simp [shiftDomain_cons]
  | cons x xs ih =>
    have hx : x ≠ '.' := fun e => h (by simp [e])
    rw [List.cons_append, shiftDomain_cons, if_neg hx]
    exact ih (fun e => h (List.mem_cons_of_mem _ e))

theorem shiftDomain_of_no_dot (d : Str) (h : '.' ∉ d) : shiftDomain d = [] := by
  induction d with
  | nil => rfl
  | cons x xs ih =>
    have hx : x ≠ '.' := fun e => h (by simp [e])
    rw [shiftDomain_cons, if_neg hx]
    exact ih (fun e => h (List.mem_cons_of_mem _ e))

/-- C15: `shiftDomain` is total: the split always has a first part to drop, also for the
empty string; for a domain containing a dot the result is the text after the first dot, and
for a domain without a dot (a single label, or empty) it is the empty string. In particular
`shiftDomain "a.b.c" = "b.c"` and `shiftDomain "a" = ""`. -/
theorem shiftDomain_total_and_drops_first_label :
    (∀ d : Str, 1 ≤ (stringsSplit '.' d).length) ∧
    (∀ pre post : Str, '.' ∉ pre → shiftDomain (pre ++ '.' :: post) = post) ∧
    (∀ d : Str, '.' ∉ d → shiftDomain d = []) ∧
    shiftDomain [] = [] ∧
    shiftDomain "a.b.c".toList = "b.c".toList ∧
    shiftDomain "a".toList = "".toList := by
  refine ⟨fun d => ?_, shiftDomain_append_dot, shiftDomain_of_no_dot, rfl, by decide, by decide⟩
  have := stringsSplit_ne_nil '.' d
  cases h : stringsSplit '.' d with
  | nil => exact absurd h this
  | cons l ls => simp

/-! ## Properties of the serial incrementer -/

theorem takeWhile_dropWhile_append_stop (f : Char → Bool) (p rest : Str)
    (hp : ∀ c ∈ p, f c = true) (hr : ∀ c, rest.head? = some c → f c = false) :
    (p ++ rest).takeWhile f = p ∧ (p ++ rest).dropWhile f = rest := by
  induction p with
  | nil =>
    cases rest with
    | nil => simp
    | cons c r =>
      have hc : f c = false := hr c rfl
      simp [List.takeWhile_cons, List.dropWhile_cons, hc]
  | cons x xs ih =>
    have hx : f x = true := hp x (List.mem_cons_self _ _)
    have := ih (fun c hc => hp c (List.mem_cons_of_mem _ hc))
    simp [List.takeWhile_cons, List.dropWhile_cons, hx, this.1, this.2]

theorem isBlank_of_isDigit (c : Char) (h : c.isDigit = true) : isBlank c = false := by
  by_contra hb
  simp only [Bool.not_eq_false] at hb
  unfold isBlank at hb
  simp only [Bool.or_eq_true, beq_iff_eq] at hb
  rcases hb with hb | hb <;> rw [hb] at h <;> exact absurd h (by decide)

theorem isDigit_of_isBlank (c : Char) (h : isBlank c = true) : c.isDigit = false := by
  by_contra hd
  simp only [Bool.not_eq_false] at hd
  rw [isBlank_of_isDigit c hd] at h
  exact absurd h (by simp)

theorem serialSubmatch_of_serialLine (line p d : Str) (h : SerialLine line p d) :
    serialSubmatch line = some (p, d) := by
  obtain ⟨s1, s2, tail, hline, hp, hd, hdd, hs1, hs2⟩ := h
  obtain ⟨d0, ds, rfl⟩ := List.exists_cons_of_ne_nil hd
  have hd0 : (d0 :: ds ++ (s1 ++ ';' :: (s2 ++ ("serial".toList ++ tail)))).head? = some d0 := rfl
  have e1 := takeWhile_dropWhile_append_stop isBlank p
    (d0 :: ds ++ (s1 ++ ';' :: (s2 ++ ("serial".toList ++ tail)))) hp
    (fun c hc => by
      rw [hd0] at hc
      simp only [Option.some.injEq] at hc
      rw [← hc]
      exact isBlank_of_isDigit d0 (hdd d0 (List.mem_cons_self _ _)))
  have e2 := takeWhile_dropWhile_append_stop Char.isDigit (d0 :: ds)
    (s1 ++ ';' :: (s2 ++ ("serial".toList ++ tail))) hdd
    (fun c hc => by
      cases s1 with
      | nil =>
        simp only [List.nil_append, List.head?_cons, Option.some.injEq] at hc
        rw [← hc]; decide
      | cons b bs =>
        simp only [List.cons_append, List.head?_cons, Option.some.injEq] at hc
        rw [← hc]
        exact isDigit_of_isBlank b (hs1 b (List.mem_cons_self _ _)))
  have e3 := takeWhile_dropWhile_append_stop isBlank s1
    (';' :: (s2 ++ ("serial".toList ++ tail))) hs1
    (fun c hc => by
      simp only [List.head?_cons, Option.some.injEq] at hc
      rw [← hc]; decide)
  have e4 := takeWhile_dropWhile_append_stop isBlank s2 ("serial".toList ++ tail) hs2
    (fun c hc => by
      have : ("serial".toList ++ tail).head? = some 's' := rfl
      rw [this] at hc
      simp only [Option.some.injEq] at hc
      rw [← hc]; decide)
  have hnorm : line = p ++ (d0 :: ds ++ (s1 ++ ';' :: (s2 ++ ("serial".toList ++ tail)))) := by
    rw [hline]; simp only [List.append_assoc, List.cons_append]
  unfold serialSubmatch
  simp only [hnorm, e1.1, e1.2, e2.1, e2.2, e3.2, List.head?_cons, List.drop_succ_cons,
    List.drop_zero, e4.2]
  have hpre : "serial".toList.isPrefixOf ("serial".toList ++ tail) = true := by
    rw [List.isPrefixOf_iff_prefix]
    exact List.prefix_append _ _
  simp [hpre]

theorem serialLine_of_serialSubmatch (line p d : Str) (h : serialSubmatch line = some (p, d)) :
    SerialLine line p d := by
  unfold serialSubmatch at h
  simp only at h
  split at h
  · simp at h
  · rename_i hne
    split at h
    · rename_i hcond
      simp only [Option.some.injEq, Prod.mk.injEq] at h
      obtain ⟨hp, hd⟩ := h
      obtain ⟨hhead, hpre⟩ := hcond
      rw [List.isPrefixOf_iff_prefix] at hpre
      obtain ⟨tail, htail⟩ := hpre
      have hr2 : ((line.dropWhile isBlank).dropWhile Char.isDigit).dropWhile isBlank =
          ';' :: (((line.dropWhile isBlank).dropWhile Char.isDigit).dropWhile isBlank).drop 1 := by
        cases hcase : ((line.dropWhile isBlank).dropWhile Char.isDigit).dropWhile isBlank with
        | nil => rw [hcase] at hhead; simp at hhead
        | cons c cs =>
          rw [hcase] at hhead
          simp only [List.head?_cons, Option.some.injEq] at hhead
          simp [hhead]
      refine ⟨((line.dropWhile isBlank).dropWhile Char.isDigit).takeWhile isBlank,
        ((((line.dropWhile isBlank).dropWhile Char.isDigit).dropWhile isBlank).drop 1).takeWhile
          isBlank, tail, ?_, ?_, ?_, ?_, ?_, ?_⟩
      · simp only [List.append_assoc, List.cons_append]
        rw [htail, List.takeWhile_append_dropWhile, ← hr2, List.takeWhile_append_dropWhile,
          ← hd, List.takeWhile_append_dropWhile, ← hp, List.takeWhile_append_dropWhile]
      · intro c hc
        rw [← hp] at hc
        exact List.mem_takeWhile_imp hc
      · rw [← hd]
        intro e
        exact hne (by simp [e])
      · intro c hc
        rw [← hd] at hc
        exact List.mem_takeWhile_imp hc
      · intro c hc
        exact List.mem_takeWhile_imp hc
      · intro c hc
        exact List.mem_takeWhile_imp hc
    · simp at h

theorem serialLoop_skip (ls : List Str)
    (h : ∀ l ∈ ls, ∀ p d, serialSubmatch l = some (p, d) → p = []) :
    serialLoop ls = .ok ls := by
  induction ls with
  | nil => rfl
  | cons line rest ih =>
    have ihr := ih (fun l hl => h l (List.mem_cons_of_mem _ hl))
    unfold serialLoop
    cases hsub : serialSubmatch line with
    | none => simp [ihr, Except.map]
    | some pd =>
      obtain ⟨p, d⟩ := pd
      have hp := h line (List.mem_cons_self _ _) p d hsub
      simp [hp, ihr, Except.map]

theorem serialLoop_first (before after : List Str) (line p d : Str) (n : Int)
    (hbefore : ∀ l ∈ before, ∀ p d, serialSubmatch l = some (p, d) → p = [])
    (hsub : serialSubmatch line = some (p, d)) (hp : p ≠ [])
    (hparse : parseInt64 d = .ok n) :
    serialLoop (before ++ line :: after) =
      .ok (before ++ (p ++ formatInt (int64Succ n) ++ " ; serial".toList) :: after) := by
  induction before with
  | nil =>
    simp only [List.nil_append]
    unfold serialLoop
    simp [hsub, hp, hparse]
  | cons l rest ih =>
    have ihr := ih (fun x hx => hbefore x (List.mem_cons_of_mem _ hx))
    rw [List.cons_append]
    unfold serialLoop
    cases hl : serialSubmatch l with
    | none => simp [ihr, Except.map]
    | some pd =>
      obtain ⟨q, e⟩ := pd
      have hq := hbefore l (List.mem_cons_self _ _) q e hl
      simp [hq, ihr, Except.map]

theorem formatInt_int64Succ (n : Nat) (h : n < 2 ^ 63 - 1) :
    formatInt (int64Succ (n : Int)) = Nat.toDigits 10 (n + 1) := by
  have h1 : int64Succ (n : Int) = ((n + 1 : Nat) : Int) := by
    unfold int64Succ
    have hlt : ((n : Int) + 1 + 2 ^ 63) < 2 ^ 64 := by
      have h2 : n < 9223372036854775807 := by
        have e : (2 : Nat) ^ 63 - 1 = 9223372036854775807 := by norm_num
        omega
      norm_num
      omega
    have hnn : (0 : Int) ≤ (n : Int) + 1 + 2 ^ 63 := by positivity
    rw [Int.emod_eq_of_lt hnn hlt]
    push_cast
    ring
  rw [h1]
  unfold formatInt
  rw [if_neg (by omega)]
  simp

theorem parseInt64_of_lt (d : Str) (h : digitsValue d < 2 ^ 63) :
    parseInt64 d = .ok (digitsValue d : Int) := by
  unfold parseInt64
  rw [if_pos h]

theorem toDigits_no_newline (n : Nat) : '\n' ∉ Nat.toDigits 10 n := by
  intro h
  exact (toDigitsCore_plain _ _ [] (by simp) '\n' h).1 rfl

theorem not_serial_skip (ls : List Str)
    (h : ∀ l ∈ ls, ¬ ∃ p d, p ≠ [] ∧ SerialLine l p d) :
    ∀ l ∈ ls, ∀ p d, serialSubmatch l = some (p, d) → p = [] := by
  intro l hl p d hsub
  by_contra hp
  exact h l hl ⟨p, d, hp, serialLine_of_serialSubmatch l p d hsub⟩

/-- C11: when the first serial line of a zone text (the first line of the form
`<p><d><spacing>;<spacing>serial` with `p` a non-empty run of spaces and tabs, whatever
follows `serial`) has a digit run `d` of value `n < 2^63 - 1`, `updateZoneSerial` writes that
line as `<p><n+1> ; serial` and every other line, before or after, unchanged. -/
theorem updateZoneSerial_increments_first_serial (contents : Str) (before after : List Str)
    (line p d : Str)
    (hsplit : stringsSplit '\n' contents = before ++ line :: after)
    (hfirst : ∀ l ∈ before, ¬ ∃ q e, q ≠ [] ∧ SerialLine l q e)
    (hline : SerialLine line p d) (hp : p ≠ [])
    (hn : digitsValue d < 2 ^ 63 - 1) :
    updateSerialText contents =
      .ok (stringsJoin "\n".toList
        (before ++ (p ++ Nat.toDigits 10 (digitsValue d + 1) ++ " ; serial".toList) :: after)) ∧
    stringsSplit '\n' (stringsJoin "\n".toList
        (before ++ (p ++ Nat.toDigits 10 (digitsValue d + 1) ++ " ; serial".toList) :: after))
      = before ++ (p ++ Nat.toDigits 10 (digitsValue d + 1) ++ " ; serial".toList) :: after ∧
    ∀ zoneFile dir, readFile zoneFile dir = some contents →
      updateZoneSerial zoneFile dir =
        (writeFile zoneFile (stringsJoin "\n".toList
          (before ++ (p ++ Nat.toDigits 10 (digitsValue d + 1) ++ " ; serial".toList) :: after))
          dir, .ok ()) := by
  have htext : updateSerialText contents =
      .ok (stringsJoin "\n".toList
        (before ++ (p ++ Nat.toDigits 10 (digitsValue d + 1) ++ " ; serial".toList) :: after)) := by
    unfold updateSerialText
    rw [hsplit, serialLoop_first before after line p d (digitsValue d : Int)
      (not_serial_skip before hfirst) (serialSubmatch_of_serialLine line p d hline) hp
      (parseInt64_of_lt d (by omega)), formatInt_int64Succ _ hn]
    rfl
  refine ⟨htext, ?_, ?_⟩
  · rw [newline_toList]
    apply stringsSplit_join
    · simp
    · have hold := not_mem_of_mem_stringsSplit '\n' contents
      rw [hsplit] at hold
      intro l hl
      rcases List.mem_append.1 hl with h | h
      · exact hold l (List.mem_append_left _ h)
      · rcases List.mem_cons.1 h with h1 | h1
        · rw [h1]
          obtain ⟨_, _, _, _, hpb, _⟩ := hline
          simp only [List.mem_append, not_or]
          exact ⟨⟨fun hin => (isBlank_plain _ (hpb _ hin)).1 rfl, toDigits_no_newline _⟩,
            by decide⟩
        · exact hold l (List.mem_append_right _ (List.mem_cons_of_mem _ h1))
  · intro zoneFile dir hread
    rw [updateZoneSerial_eq zoneFile contents dir hread, htext]

set_option maxRecDepth 100000 in
/-- C11, scenario: 21 spaces and `2024060100    ; serial` become 21 spaces and
`2024060101 ; serial`; the line before and the later serial-looking line stay as they were. -/
theorem updateZoneSerial_increments_first_serial_witness :
    stringsSplit '\n' serialTextEx =
      ["@ 3600 IN SOA a.ns.lan. devenv.lan. (".toList] ++ serialLineEx ::
        ["  86400 ; serial".toList] ∧
    SerialLine serialLineEx "                     ".toList "2024060100".toList ∧
    digitsValue "2024060100".toList < 2 ^ 63 - 1 ∧
    updateSerialText serialLineEx = .ok "                     2024060101 ; serial".toList ∧
    updateSerialText serialTextEx =
      .ok (stringsJoin "\n".toList
        (["@ 3600 IN SOA a.ns.lan. devenv.lan. (".toList] ++
          ("                     ".toList
            ++ Nat.toDigits 10 (digitsValue "2024060100".toList + 1) ++ " ; serial".toList) ::
          ["  86400 ; serial".toList])) :=
  ⟨by decide,
    ⟨"    ".toList, " ".toList, [], by decide, by decide, by decide, by decide, by decide,
      by decide⟩,
    by decide, by decide,
    (updateZoneSerial_increments_first_serial serialTextEx
      ["@ 3600 IN SOA a.ns.lan. devenv.lan. (".toList] ["  86400 ; serial".toList]
      serialLineEx "                     ".toList "2024060100".toList (by decide)
      (fun l hl hex => by
        obtain ⟨q, e, _, hs⟩ := hex
        have h1 := serialSubmatch_of_serialLine l q e hs
        have h2 : ∀ x ∈ ["@ 3600 IN SOA a.ns.lan. devenv.lan. (".toList],
            serialSubmatch x = none := by decide
        rw [h2 l hl] at h1
        exact absurd h1 (by simp))
      ⟨"    ".toList, " ".toList, [], by decide, by decide, by decide, by decide, by decide,
        by decide⟩
      (by decide) (by decide)).1⟩

/-- C12: when no line of the zone text matches the serial pattern with a non-empty leading
run of spaces and tabs (in particular when no line matches it at all), `updateZoneSerial`
returns no error and writes back exactly the text it read. -/
theorem updateZoneSerial_without_serial_line (contents : Str)
    (hnone : ∀ l ∈ stringsSplit '\n' contents, ¬ ∃ p d, p ≠ [] ∧ SerialLine l p d) :
    updateSerialText contents = .ok contents ∧
    stringsJoin "\n".toList (stringsSplit '\n' contents) = contents ∧
    ∀ zoneFile dir, readFile zoneFile dir = some contents →
      updateZoneSerial zoneFile dir = (writeFile zoneFile contents dir, .ok ()) := by
  have htext : updateSerialText contents = .ok contents := by
    unfold updateSerialText
    rw [serialLoop_skip _ (not_serial_skip _ hnone)]
    simp only [Except.map, newline_toList, stringsJoin_split]
  refine ⟨htext, by rw [newline_toList, stringsJoin_split], ?_⟩
  intro zoneFile dir hread
  rw [updateZoneSerial_eq zoneFile contents dir hread, htext]

/-- C12, scenario: a zone text without a serial line is written back as it is. -/
theorem updateZoneSerial_without_serial_line_witness :
    (∀ l ∈ stringsSplit '\n' "$ORIGIN example.com.\n; serial 7\n".toList,
      serialSubmatch l = none) ∧
    updateSerialText "$ORIGIN example.com.\n; serial 7\n".toList
      = .ok "$ORIGIN example.com.\n; serial 7\n".toList :=
  ⟨by decide,
    (updateZoneSerial_without_serial_line "$ORIGIN example.com.\n; serial 7\n".toList
      (fun l hl hex => by
        obtain ⟨q, e, _, hs⟩ := hex
        have h1 := serialSubmatch_of_serialLine l q e hs
        have h2 : ∀ x ∈ stringsSplit '\n' "$ORIGIN example.com.\n; serial 7\n".toList,
            serialSubmatch x = none := by decide
        rw [h2 l hl] at h1
        exact absurd h1 (by simp))).1⟩

/-! ## Properties of the owner and of present followed by cleanup -/

/-- C13, failing input: the record `_acme-challenge.lanparty.lan` resolves to `db.lan`
(origin `lan`) and ends with `.lan`, yet the owner computed for it is
`_acme-challengeparty.lan`, not `_acme-challenge.lanparty`: the leftmost `.lan` is removed,
not the trailing one. For `_acme-challenge.foo.example.com` in `db.example.com` the owner is
`_acme-challenge.foo`. -/
theorem recordOwner_removes_leftmost_occurrence :
    (FindZoneFile exNow lanpartyRequest true []).result = .ok "db.lan".toList ∧
    "_acme-challenge.lanparty.lan".toList
      = "_acme-challenge.lanparty".toList ++ ".".toList ++ "lan".toList ∧
    recordOwner "db.lan".toList "_acme-challenge.lanparty.lan".toList
      = "_acme-challengeparty.lan".toList ∧
    recordOwner "db.lan".toList "_acme-challenge.lanparty.lan".toList
      ≠ "_acme-challenge.lanparty".toList ∧
    recordOwner "db.example.com".toList "_acme-challenge.foo.example.com".toList
      = "_acme-challenge.foo".toList := by
  decide

theorem insertOrUpdateText_eq_of_some (value record contents : Str)
    (hsome : ∃ l ∈ stringsSplit '\n' contents, stringsContains l record = true) :
    insertOrUpdateText value record contents =
      stringsJoin "\n".toList ((stringsSplit '\n' contents).map
        (fun l => if stringsContains l record then generateRecordLine value record else l)) := by
  unfold insertOrUpdateText
  simp only [insertLoop_fst, insertLoop_snd]
  rw [if_pos]
  simpa using hsome

/-- C17, as stated, fails: a value holding a newline turns the one rewritten line into two,
so the text written has three lines where the text read had two. -/
theorem insertOrUpdate_newline_value_adds_line :
    (∃ l ∈ stringsSplit '\n' "x\ny".toList, stringsContains l "x".toList = true) ∧
    insertOrUpdateText "a\nb".toList "x".toList "x\ny".toList
      = "x IN TXT \"a\nb\"\ny".toList ∧
    (stringsSplit '\n' "x\ny".toList).length = 2 ∧
    (stringsSplit '\n'
      (insertOrUpdateText "a\nb".toList "x".toList "x\ny".toList)).length = 3 := by
  decide

/-- C17, amended: for an owner and a value without a newline, when at least one line of the
text contains the owner, the lines of the text `insertOrUpdateRecord` writes are the lines of
the text read with each line containing the owner (all of them) replaced by
`<owner> IN TXT "<value>"` and every other line unchanged in its place; no line is added, so
the number of lines is unchanged. -/
theorem insertOrUpdate_rewrites_every_owner_line (contents owner value : Str)
    (hown : '\n' ∉ owner) (hval : '\n' ∉ value)
    (hsome : ∃ l ∈ stringsSplit '\n' contents, stringsContains l owner = true) :
    stringsSplit '\n' (insertOrUpdateText value owner contents) =
      (stringsSplit '\n' contents).map
        (fun l => if stringsContains l owner then
          owner ++ " IN TXT \"".toList ++ value ++ "\"".toList else l) ∧
    (stringsSplit '\n' (insertOrUpdateText value owner contents)).length
      = (stringsSplit '\n' contents).length ∧
    insertOrUpdateText value owner contents =
      stringsJoin "\n".toList ((stringsSplit '\n' contents).map
        (fun l => if stringsContains l owner then
          owner ++ " IN TXT \"".toList ++ value ++ "\"".toList else l)) := by
  have hlines : stringsSplit '\n' (insertOrUpdateText value owner contents) =
      (stringsSplit '\n' contents).map
        (fun l => if stringsContains l owner then
          owner ++ " IN TXT \"".toList ++ value ++ "\"".toList else l) := by
    rw [insertOrUpdateText_lines value owner contents hown hval, if_pos]
    · rfl
    · simpa using hsome
  refine ⟨hlines, ?_, insertOrUpdateText_eq_of_some value owner contents hsome⟩
  rw [hlines, List.length_map]

/-- C17, scenario: both lines for `x` are rewritten and the line between them is kept. -/
theorem insertOrUpdate_rewrites_every_owner_line_witness :
    '\n' ∉ "x".toList ∧ '\n' ∉ "2".toList ∧
    (∃ l ∈ stringsSplit '\n' "x IN TXT \"a\"\nkeep\nx IN TXT \"b\"".toList,
      stringsContains l "x".toList = true) ∧
    insertOrUpdateText "2".toList "x".toList "x IN TXT \"a\"\nkeep\nx IN TXT \"b\"".toList
      = "x IN TXT \"2\"\nkeep\nx IN TXT \"2\"".toList ∧
    stringsSplit '\n'
        (insertOrUpdateText "2".toList "x".toList
          "x IN TXT \"a\"\nkeep\nx IN TXT \"b\"".toList) =
      (stringsSplit '\n' "x IN TXT \"a\"\nkeep\nx IN TXT \"b\"".toList).map
        (fun l => if stringsContains l "x".toList then
          "x".toList ++ " IN TXT \"".toList ++ "2".toList ++ "\"".toList else l) :=
  ⟨by decide, by decide, by decide, by decide,
    (insertOrUpdate_rewrites_every_owner_line "x IN TXT \"a\"\nkeep\nx IN TXT \"b\"".toList
      "x".toList "2".toList (by decide) (by decide) (by decide)).1⟩

theorem stringsContains_of_append (l a b : Str) (h : stringsContains l (a ++ b) = true) :
    stringsContains l a = true := by
  rw [stringsContains_iff] at h ⊢
  exact (List.prefix_append a b).isInfix.trans h

theorem generateRecordLine_contains_in_txt (value record : Str) :
    stringsContains (generateRecordLine value record) (record ++ " IN TXT".toList) = true := by
  rw [stringsContains_iff]
  unfold generateRecordLine
  exact ⟨[], " \"".toList ++ value ++ "\"".toList, by simp⟩

theorem insertOrUpdateText_lines_filter (value record contents : Str)
    (hr : '\n' ∉ record) (hv : '\n' ∉ value) :
    (stringsSplit '\n' (insertOrUpdateText value record contents)).filter
        (fun l => !stringsContains l record) =
      (stringsSplit '\n' contents).filter (fun l => !stringsContains l record) := by
  rw [insertOrUpdateText_lines value record contents hr hv]
  split
  · induction stringsSplit '\n' contents with
    | nil => rfl
    | cons l rest ih =>
      by_cases h0 : stringsContains l record = true
      · simp only [List.map_cons, h0, if_true, List.filter_cons, generateRecordLine_contains,
          Bool.not_true, Bool.false_eq_true, if_false]
        exact ih
      · simp only [Bool.not_eq_true] at h0
        simp only [List.map_cons, h0, Bool.false_eq_true, if_false, List.filter_cons,
          Bool.not_false, if_true]
        rw [ih]
  · rw [List.filter_append]
    simp [List.filter_cons, generateRecordLine_contains]

/-- C19: for an owner and a value without a newline, `cleanupRecord` applied to the text
written by `insertOrUpdateRecord` succeeds; the lines it removes are exactly the lines equal
to the generated record line, so it writes the original lines that did not contain the
owner; when no line of the original text contained the owner, the original text is
restored. -/
theorem cleanup_after_insertOrUpdate (contents owner value : Str)
    (hown : '\n' ∉ owner) (hval : '\n' ∉ value) :
    cleanupText owner (insertOrUpdateText value owner contents) =
      .ok (stringsJoin "\n".toList
        ((stringsSplit '\n' contents).filter (fun l => !stringsContains l owner))) ∧
    (stringsSplit '\n' (insertOrUpdateText value owner contents)).filter
        (fun l => !stringsContains l (owner ++ " IN TXT".toList)) =
      (stringsSplit '\n' (insertOrUpdateText value owner contents)).filter
        (fun l => !(l == owner ++ " IN TXT \"".toList ++ value ++ "\"".toList)) ∧
    ((∀ l ∈ stringsSplit '\n' contents, stringsContains l owner = false) →
      cleanupText owner (insertOrUpdateText value owner contents) = .ok contents) := by
  have hkey : ∀ l ∈ stringsSplit '\n' (insertOrUpdateText value owner contents),
      stringsContains l (owner ++ " IN TXT".toList) = stringsContains l owner := by
    intro l hl
    by_cases h0 : stringsContains l owner = true
    · have hg := insertOrUpdateText_lines_eq_of_contains value owner contents hown hval l hl h0
      rw [h0, hg]
      exact generateRecordLine_contains_in_txt value owner
    · simp only [Bool.not_eq_true] at h0
      rw [h0]
      by_contra hc
      simp only [Bool.not_eq_false] at hc
      rw [stringsContains_of_append l owner _ hc] at h0
      exact absurd h0 (by simp)
  have hfilter : (stringsSplit '\n' (insertOrUpdateText value owner contents)).filter
        (fun l => !stringsContains l (owner ++ " IN TXT".toList)) =
      (stringsSplit '\n' contents).filter (fun l => !stringsContains l owner) := by
    rw [← insertOrUpdateText_lines_filter value owner contents hown hval]
    apply List.filter_congr
    intro l hl
    rw [hkey l hl]
  have hany : (stringsSplit '\n' (insertOrUpdateText value owner contents)).any
      (fun l => stringsContains l (owner ++ " IN TXT".toList)) = true := by
    have h1 := insertOrUpdateText_lines_any value owner contents hown hval
    rw [List.any_eq_true] at h1 ⊢
    obtain ⟨l, hl, hc⟩ := h1
    exact ⟨l, hl, by rw [hkey l hl]; exact hc⟩
  have hfirst : cleanupText owner (insertOrUpdateText value owner contents) =
      .ok (stringsJoin "\n".toList
        ((stringsSplit '\n' contents).filter (fun l => !stringsContains l owner))) := by
    rw [cleanupText_eq, if_pos hany, hfilter]
  refine ⟨hfirst, ?_, ?_⟩
  · apply List.filter_congr
    intro l hl
    rw [hkey l hl]
    by_cases h0 : stringsContains l owner = true
    · have hg := insertOrUpdateText_lines_eq_of_contains value owner contents hown hval l hl h0
      rw [h0]
      have : (l == owner ++ " IN TXT \"".toList ++ value ++ "\"".toList) = true := by
        rw [beq_iff_eq]; exact hg
      rw [this]
    · simp only [Bool.not_eq_true] at h0
      rw [h0]
      have : (l == owner ++ " IN TXT \"".toList ++ value ++ "\"".toList) = false := by
        rw [beq_eq_false_iff_ne]
        intro e
        have hc := generateRecordLine_contains value owner
        unfold generateRecordLine at hc
        rw [← e, h0] at hc
        exact absurd hc (by simp)
      rw [this]
  · intro hnone
    rw [hfirst]
    have hall : (stringsSplit '\n' contents).filter (fun l => !stringsContains l owner)
        = stringsSplit '\n' contents := by
      rw [List.filter_eq_self]
      intro l hl
      simp [hnone l hl]
    rw [hall, newline_toList, stringsJoin_split]

/-- C19, scenario: present and cleanup of `x` on a text without `x` give the text back. -/
theorem cleanup_after_insertOrUpdate_witness :
    '\n' ∉ "x".toList ∧ '\n' ∉ "v1".toList ∧
    insertOrUpdateText "v1".toList "x".toList "$ORIGIN lan.\n".toList
      = "$ORIGIN lan.\n\nx IN TXT \"v1\"".toList ∧
    cleanupText "x".toList (insertOrUpdateText "v1".toList "x".toList "$ORIGIN lan.\n".toList)
      = .ok "$ORIGIN lan.\n".toList :=
  ⟨by decide, by decide, by decide,
    (cleanup_after_insertOrUpdate "$ORIGIN lan.\n".toList "x".toList "v1".toList
      (by decide) (by decide)).2.2 (by decide)⟩

/-! ## Properties of the depth limit -/

theorem stringsCount_iterate_shiftDomain (k : Nat) (d : Str) :
    stringsCount '.' (shiftDomain^[k] d) = stringsCount '.' d - k := by
  induction k with
  | zero => simp
  | succ k ih =>
    rw [Function.iterate_succ_apply', stringsCount_shiftDomain, ih]
    omega

theorem walkLoop_eq_noBreak (files : Dir) : ∀ (n : Nat) (d : Str), n ≤ stringsCount '.' d →
    walkLoop files n d = walkLoopNoBreak files n d := by
  intro n
  induction n with
  | zero => intro d _; rfl
  | succ n ih =>
    intro d hd
    have hne : d ≠ shiftDomain d :=
      shiftDomain_ne_self d (ne_nil_of_stringsCount_pos '.' d (by omega))
    have hcount : n ≤ stringsCount '.' (shiftDomain d) := by
      rw [stringsCount_shiftDomain]; omega
    unfold walkLoop walkLoopNoBreak
    simp only [if_neg hne]
    cases searchZoneFilesForOrigin (shiftDomain d) files with
    | some f => rfl
    | none => exact ih (shiftDomain d) hcount

/-- C20: the early exit of the walk of `FindZoneFile` is never taken. At the start of every
iteration the depth limit allows, the current domain contains a dot and is not empty, so the
shifted domain is strictly shorter and different; the loop with the early exit taken out
computes the same result. -/
theorem walk_early_exit_unreachable (record : Str) :
    (∀ i, i < walkDepth record →
      '.' ∈ walkDomain record i ∧ walkDomain record i ≠ [] ∧
      (shiftDomain (walkDomain record i)).length < (walkDomain record i).length ∧
      walkDomain record i ≠ shiftDomain (walkDomain record i)) ∧
    (∀ files : Dir,
      walkLoop files (walkDepth record) (shiftDomain record) =
        walkLoopNoBreak files (walkDepth record) (shiftDomain record)) := by
  refine ⟨fun i hi => ?_, fun files => walkLoop_eq_noBreak files _ _ (walkLimit_toNat_le _)⟩
  have hle := walkLimit_toNat_le (shiftDomain record)
  have hpos : 0 < stringsCount '.' (walkDomain record i) := by
    unfold walkDomain
    rw [stringsCount_iterate_shiftDomain]
    unfold walkDepth at hi
    omega
  have hne := ne_nil_of_stringsCount_pos '.' _ hpos
  exact ⟨(stringsCount_pos_iff _ _).1 hpos, hne, shiftDomain_length_lt _ hne,
    shiftDomain_ne_self _ hne⟩

theorem lanTail_ne_nil (x : Str) (h : lanTail x = true) : x ≠ [] := by
  intro e
  rw [e] at h
  exact absurd h (by decide)

theorem stringsCount_dot_of_all_digit (s : Str) (h : s.all Char.isDigit = true) :
    stringsCount '.' s = 0 := by
  by_contra hne
  have hpos : 0 < stringsCount '.' s := Nat.pos_of_ne_zero hne
  rw [stringsCount_pos_iff] at hpos
  rw [List.all_eq_true] at h
  exact absurd (h '.' hpos) (by decide)

theorem lanTail_count (x : Str) (h : lanTail x = true) : stringsCount '.' x = 0 := by
  unfold lanTail at h
  rw [Bool.and_eq_true, List.isPrefixOf_iff_prefix] at h
  obtain ⟨⟨t, ht⟩, hdig⟩ := h
  rw [← ht] at hdig ⊢
  have hdrop : ("lan".toList ++ t).drop 3 = t := rfl
  rw [hdrop] at hdig
  have := stringsCount_dot_of_all_digit t hdig
  have hlan : "lan".toList ++ t = 'l' :: 'a' :: 'n' :: t := rfl
  rw [hlan]
  simp [stringsCount, this]

theorem isLocalTLD_count_pos (x : Str) (h : isLocalTLD x = true) :
    0 < stringsCount '.' x := by
  induction x with
  | nil => exact absurd h (by simp [isLocalTLD])
  | cons c cs ih =>
    unfold isLocalTLD at h
    rw [Bool.or_eq_true, Bool.and_eq_true, beq_iff_eq] at h
    rcases h with ⟨hc, _⟩ | h
    · simp [stringsCount, hc]
    · have := ih h
      unfold stringsCount
      omega

theorem isLocalTLD_shiftDomain (x : Str) (h : isLocalTLD x = true) :
    isLocalTLD (shiftDomain x) = true ∨ lanTail (shiftDomain x) = true := by
  induction x with
  | nil => exact absurd h (by simp [isLocalTLD])
  | cons c cs ih =>
    unfold isLocalTLD at h
    rw [Bool.or_eq_true, Bool.and_eq_true, beq_iff_eq] at h
    rw [shiftDomain_cons]
    by_cases hc : c = '.'
    · rw [if_pos hc]
      rcases h with ⟨_, ht⟩ | h
      · right; exact ht
      · left; exact h
    · rw [if_neg hc]
      rcases h with ⟨hc', _⟩ | h
      · exact absurd hc' hc
      · exact ih h

theorem isLocalTLD_iterate (c : Str) (h : isLocalTLD c = true) :
    ∀ k, k ≤ stringsCount '.' c →
      isLocalTLD (shiftDomain^[k] c) = true ∨ lanTail (shiftDomain^[k] c) = true := by
  intro k
  induction k with
  | zero => intro _; left; exact h
  | succ k ih =>
    intro hk
    rw [Function.iterate_succ_apply']
    rcases ih (by omega) with h1 | h1
    · exact isLocalTLD_shiftDomain _ h1
    · have h0 := lanTail_count _ h1
      rw [stringsCount_iterate_shiftDomain] at h0
      omega

/-- C18: when the first candidate of the walk (the record name without its leftmost label)
contains a dot and is not local-reserved, every domain of the walk, hence every origin
`FindZoneFile` queries or creates a zone for, contains a dot; for a local-reserved candidate
every domain of the walk is non-empty. When `FindZoneFile` creates, it runs its create branch
for the last domain of the walk and for no other domain. -/
theorem walk_origins_keep_two_labels (zf : ZoneFile) :
    ('.' ∈ shiftDomain zf.record → isLocalTLD (shiftDomain zf.record) = false →
      ∀ k, k ≤ walkDepth zf.record → '.' ∈ walkDomain zf.record k) ∧
    (isLocalTLD (shiftDomain zf.record) = true →
      ∀ k, k ≤ walkDepth zf.record → walkDomain zf.record k ≠ []) ∧
    (∀ now create dir, (FindZoneFile now zf create dir).created = true →
      FindZoneFile now zf create dir =
        createAndResolve now zf (walkDomain zf.record (walkDepth zf.record)) dir) := by
  refine ⟨?_, ?_, ?_⟩
  · intro hdot hloc k hk
    rw [← stringsCount_pos_iff] at hdot ⊢
    unfold walkDomain
    rw [stringsCount_iterate_shiftDomain]
    unfold walkDepth walkLimit at hk
    rw [hloc] at hk
    simp only [Bool.false_eq_true, if_false] at hk
    omega
  · intro hloc k hk
    have hk' : k ≤ stringsCount '.' (shiftDomain zf.record) :=
      le_trans hk (walkLimit_toNat_le _)
    unfold walkDomain
    rcases isLocalTLD_iterate _ hloc k hk' with h1 | h1
    · exact ne_nil_of_stringsCount_pos '.' _ (isLocalTLD_count_pos _ h1)
    · exact lanTail_ne_nil _ h1
  · intro now create dir hcreated
    rcases findZoneFile_cases now zf create dir with ⟨_, _, _, _, _, heq⟩ | ⟨_, heq⟩
    · rw [heq] at hcreated
      simp at hcreated
    · rw [heq] at hcreated ⊢
      cases create with
      | false => simp at hcreated
      | true => rfl

/-- C18, scenario: for `_acme-challenge.foo.example.com` the walk stops at `example.com`;
for the local-reserved `_acme-challenge.lab.lan` it ends at the single label `lan`. -/
theorem walk_origins_keep_two_labels_witness :
    '.' ∈ shiftDomain exRequest.record ∧ isLocalTLD (shiftDomain exRequest.record) = false ∧
    walkDomain exRequest.record (walkDepth exRequest.record) = "example.com".toList ∧
    '.' ∈ walkDomain exRequest.record (walkDepth exRequest.record) ∧
    isLocalTLD (shiftDomain labRequest.record) = true ∧
    walkDomain labRequest.record (walkDepth labRequest.record) = "lan".toList ∧
    walkDomain labRequest.record (walkDepth labRequest.record) ≠ [] :=
  ⟨by decide, by decide, by decide,
    (walk_origins_keep_two_labels exRequest).1 (by decide) (by decide) _ (le_refl _),
    by decide, by decide,
    (walk_origins_keep_two_labels labRequest).2.1 (by decide) _ (le_refl _)⟩

/-! ## Frame and idempotence of the resolver -/

end ZoneHook
